import Mathlib

/-!
# Verification of `yalue/image_combiner`

A shallow embedding, in Lean 4, of the two command-line tools in
`image_combiner.go` (the color-accumulation tool and the channel-assignment
tool), together with proofs and refutations of the specification's claims.

## Modelling conventions

* Go `float32` values are modelled as rational numbers (`ℚ`).  Every Go
  floating-point operation is correctly rounded (IEEE 754 round to nearest,
  ties to even), which we model by applying `round32` — rounding to a
  24-bit significand — after each exact rational operation.  The exponent
  range of the model is unbounded: none of the program's computations on the
  inputs considered here leave the normal range of binary32, so overflow,
  underflow and subnormal behaviour never come into play.
* The pixel-combination pipeline is written once, parameterised by the
  scalar operations (`FOps`).  Instantiating with `f32Ops` (each operation
  rounded by `round32`) gives the program's actual float32 semantics;
  instantiating with `exactOps` gives the idealized exact-arithmetic
  semantics, used only to state the amended form of the order-independence
  claim.
* Go machine integers are modelled by `Nat`/`Int`, with explicit `% 2^w`
  where overflow can matter.  Go `int` coordinates are modelled by `ℤ`.
* File I/O is abstracted by a deterministic map from file names to decode
  results; fallible operations return `Except`.
-/

/-! ## Binary32 rounding: round to nearest, ties to even

Basic facts proved about `round32`: it is exact on integers up to `2^24`,
it never moves a value by more than half an ulp, it preserves sign, and it
maps `[0, 1]` into `[0, 1]`. -/

/-- Round a rational to the nearest integer, ties to even
(the rounding applied to the scaled significand of a binary32 operation). -/
def rnE (x : ℚ) : ℤ :=
  if x - ⌊x⌋ < 1/2 then ⌊x⌋
  else if 1/2 < x - ⌊x⌋ then ⌊x⌋ + 1
  else if ⌊x⌋ % 2 = 0 then ⌊x⌋ else ⌊x⌋ + 1

/-- Correct rounding of a rational to IEEE 754 binary32 precision
(24-bit significand, round to nearest, ties to even, unbounded exponent).
Every float32 arithmetic operation of the Go program is the exact rational
operation followed by this rounding. -/
def round32 (q : ℚ) : ℚ :=
  if q = 0 then 0
  else if 0 < q then
    (rnE (q * 2 ^ (23 - Int.log 2 q)) : ℚ) * 2 ^ (Int.log 2 q - 23)
  else
    -((rnE (-q * 2 ^ (23 - Int.log 2 (-q))) : ℚ) * 2 ^ (Int.log 2 (-q) - 23))

theorem rnE_intCast (m : ℤ) : rnE (m : ℚ) = m := by
  simp [rnE]

theorem rnE_sub_abs_le (x : ℚ) : |(rnE x : ℚ) - x| ≤ 1/2 := by
  have hfl : (⌊x⌋ : ℚ) ≤ x := Int.floor_le x
  have hfu : x < ⌊x⌋ + 1 := Int.lt_floor_add_one x
  unfold rnE
  split
  · rw [abs_le]; constructor <;> push_cast <;> linarith
  · split
    · rw [abs_le]; constructor <;> push_cast <;> linarith
    · split <;> (rw [abs_le]; constructor <;> push_cast <;> linarith)

theorem rnE_nonneg {x : ℚ} (hx : 0 ≤ x) : 0 ≤ rnE x := by
  have h0 : 0 ≤ ⌊x⌋ := Int.floor_nonneg.2 hx
  unfold rnE
  split
  · exact h0
  · split
    · omega
    · split <;> omega

theorem rnE_le_of_lt {x : ℚ} {M : ℤ} (h : x < M) : rnE x ≤ M := by
  have := rnE_sub_abs_le x
  rw [abs_le] at this
  have h2 : (rnE x : ℚ) < M + 1/2 := by linarith
  by_contra hc
  push_neg at hc
  have : (M : ℚ) + 1 ≤ (rnE x : ℚ) := by exact_mod_cast hc
  linarith

/-- Uniqueness of the binary exponent: if `2^e ≤ q < 2^(e+1)` then
`Int.log 2 q = e`. -/
theorem int_log_eq_of_bounds {q : ℚ} {e : ℤ} (hq : 0 < q)
    (h1 : (2:ℚ) ^ e ≤ q) (h2 : q < (2:ℚ) ^ (e + 1)) : Int.log 2 q = e := by
  have hA : e ≤ Int.log 2 q := by
    rw [← Int.zpow_le_iff_le_log (by norm_num) hq]
    exact_mod_cast h1
  have hB : Int.log 2 q < e + 1 := by
    rw [← Int.lt_zpow_iff_log_lt (by norm_num) hq]
    exact_mod_cast h2
  omega

theorem rnE_eq_floor {x : ℚ} {f : ℤ} (h1 : (f:ℚ) ≤ x) (h2 : x - f < 1/2) : rnE x = f := by
  have hfl : ⌊x⌋ = f := Int.floor_eq_iff.2 ⟨h1, by push_cast; linarith⟩
  unfold rnE
  rw [hfl, if_pos (by push_cast; linarith)]

theorem rnE_eq_ceil {x : ℚ} {f : ℤ} (h1 : (f:ℚ) ≤ x) (h3 : x < f + 1) (h2 : 1/2 < x - f) :
    rnE x = f + 1 := by
  have hfl : ⌊x⌋ = f := Int.floor_eq_iff.2 ⟨h1, by push_cast; linarith⟩
  unfold rnE
  rw [hfl, if_neg (by push_cast; linarith), if_pos (by push_cast; linarith)]

theorem round32_zero : round32 0 = 0 := by simp [round32]

theorem round32_of_pos {q : ℚ} (hq : 0 < q) :
    round32 q = (rnE (q * 2 ^ (23 - Int.log 2 q)) : ℚ) * 2 ^ (Int.log 2 q - 23) := by
  rw [round32, if_neg (ne_of_gt hq), if_pos hq]

/-- Concrete evaluation of `round32`: exhibit the binary exponent `e` and the
rounded significand `m`. -/
theorem round32_eval {q : ℚ} {e m : ℤ} (hq : 0 < q)
    (h1 : (2:ℚ) ^ e ≤ q) (h2 : q < (2:ℚ) ^ (e + 1))
    (hm : rnE (q * 2 ^ (23 - e)) = m) : round32 q = (m : ℚ) * 2 ^ (e - 23) := by
  rw [round32_of_pos hq, int_log_eq_of_bounds hq h1 h2, hm]

theorem round32_one : round32 1 = 1 := by
  rw [round32_eval (e := 0) (m := 2^23) (by norm_num) (by norm_num) (by norm_num)
    (by
      apply rnE_eq_floor (f := 2^23) <;> norm_num)]
  norm_num

/-- Half-ulp error bound: rounding moves a positive rational by at most
`2^(e-24)` where `e` is its binary exponent. -/
theorem round32_err {q : ℚ} (hq : 0 < q) :
    |round32 q - q| ≤ 2 ^ (Int.log 2 q - 24) := by
  set e := Int.log 2 q with he
  set x := q * 2 ^ (23 - e) with hx
  have hpow : (0:ℚ) < 2 ^ (23 - e) := zpow_pos (by norm_num) _
  have hdiff : round32 q - q = ((rnE x : ℚ) - x) * 2 ^ (e - 23) := by
    rw [round32_of_pos hq, ← he, ← hx]
    have : q = x * 2 ^ (e - 23) := by
      rw [hx, mul_assoc, ← zpow_add₀ (by norm_num : (2:ℚ) ≠ 0)]
      norm_num
    rw [sub_mul]; rw [← this]
  rw [hdiff, abs_mul, abs_of_pos (zpow_pos (by norm_num : (0:ℚ) < 2) (e - 23))]
  calc |(rnE x : ℚ) - x| * 2 ^ (e - 23) ≤ (1/2) * 2 ^ (e - 23) := by
        apply mul_le_mul_of_nonneg_right (rnE_sub_abs_le x) (le_of_lt (zpow_pos (by norm_num) _))
    _ = 2 ^ (e - 24) := by
        rw [show e - 24 = (-1) + (e - 23) by ring, zpow_add₀ (by norm_num : (2:ℚ) ≠ 0)]
        norm_num

theorem round32_nonneg {q : ℚ} (hq : 0 ≤ q) : 0 ≤ round32 q := by
  rcases eq_or_lt_of_le hq with h | h
  · rw [← h, round32_zero]
  · rw [round32_of_pos h]
    apply mul_nonneg
    · exact_mod_cast rnE_nonneg (mul_nonneg (le_of_lt h) (le_of_lt (zpow_pos (by norm_num) _)))
    · exact le_of_lt (zpow_pos (by norm_num) _)

/-- Rounding a positive rational stays below twice its leading power of two. -/
theorem round32_le_pow {q : ℚ} (hq : 0 < q) :
    round32 q ≤ 2 ^ (Int.log 2 q + 1) := by
  set e := Int.log 2 q with he
  set x := q * 2 ^ (23 - e) with hx
  have hqlt : q < 2 ^ (e + 1) := Int.lt_zpow_succ_log_self (by norm_num) q
  have hxlt : x < 2 ^ (24:ℤ) := by
    rw [hx]
    calc q * 2 ^ (23 - e) < 2 ^ (e + 1) * 2 ^ (23 - e) := by
          exact mul_lt_mul_of_pos_right hqlt (zpow_pos (by norm_num) _)
      _ = 2 ^ (24:ℤ) := by
          rw [← zpow_add₀ (by norm_num : (2:ℚ) ≠ 0)]; ring_nf
  have hm : rnE x ≤ (2:ℤ) ^ (24:ℕ) := by
    have := rnE_le_of_lt (M := (2:ℤ)^(24:ℕ)) (by push_cast; exact_mod_cast hxlt)
    exact this
  rw [round32_of_pos hq, ← he, ← hx]
  calc (rnE x : ℚ) * 2 ^ (e - 23) ≤ (2:ℚ) ^ (24:ℤ) * 2 ^ (e - 23) := by
        apply mul_le_mul_of_nonneg_right _ (le_of_lt (zpow_pos (by norm_num) _))
        exact_mod_cast hm
    _ = 2 ^ (e + 1) := by
        rw [← zpow_add₀ (by norm_num : (2:ℚ) ≠ 0)]; ring_nf

/-- Values of magnitude below one round to values of magnitude at most one. -/
theorem round32_le_one {q : ℚ} (h0 : 0 ≤ q) (h1 : q ≤ 1) : round32 q ≤ 1 := by
  rcases eq_or_lt_of_le h0 with h | hpos
  · rw [← h, round32_zero]; norm_num
  · rcases eq_or_lt_of_le h1 with h | hlt
    · rw [h, round32_one]
    · have he : Int.log 2 q + 1 ≤ 0 := by
        have : Int.log 2 q < 0 := by
          rw [← Int.lt_zpow_iff_log_lt (by norm_num) hpos]
          simpa using hlt
        omega
      calc round32 q ≤ 2 ^ (Int.log 2 q + 1) := round32_le_pow hpos
        _ ≤ 2 ^ (0:ℤ) := by
            apply zpow_le_zpow_right₀ (by norm_num) he
        _ = 1 := by norm_num

/-- Integers of magnitude at most `2^24` are exactly representable in
binary32: rounding leaves them unchanged. -/
theorem round32_natCast {n : ℕ} (hn : n ≤ 2^24) : round32 (n:ℚ) = n := by
  rcases Nat.eq_zero_or_pos n with h0 | hpos
  · subst h0; push_cast; exact round32_zero
  have hq : (0:ℚ) < n := by exact_mod_cast hpos
  set e := Int.log 2 (n:ℚ) with he
  have h1 : (2:ℚ)^e ≤ n := Int.zpow_log_le_self (by norm_num) hq
  have h2 : (n:ℚ) < 2^(e+1) := Int.lt_zpow_succ_log_self (by norm_num) _
  have he24 : e ≤ 24 := by
    by_contra hc
    push_neg at hc
    have hstep : (2:ℚ)^(25:ℤ) ≤ 2^e := zpow_le_zpow_right₀ (by norm_num) (by omega)
    have hbig : (2:ℚ)^(25:ℤ) ≤ n := le_trans hstep h1
    have hn' : (n:ℚ) ≤ ((2^24 : ℕ) : ℚ) := by exact_mod_cast hn
    norm_num at hbig hn'
    linarith
  rcases eq_or_lt_of_le he24 with h24 | hlt
  · have hup : (n:ℚ) ≤ 2^(24:ℤ) := by
      have : (n:ℚ) ≤ ((2^24 : ℕ) : ℚ) := by exact_mod_cast hn
      norm_num at this ⊢
      linarith
    have hdo : (2:ℚ)^(24:ℤ) ≤ n := h24 ▸ h1
    have hval : (n:ℚ) = 2^(24:ℤ) := le_antisymm hup hdo
    rw [hval]
    rw [round32_eval (e := 24) (m := 2^23) (by norm_num) (by norm_num) (by norm_num)
      (by
        have hx : ((2:ℚ)^(24:ℤ)) * 2 ^ (23 - 24 : ℤ) = (((2^23 : ℤ)) : ℚ) := by
          rw [← zpow_add₀ (by norm_num : (2:ℚ) ≠ 0)]
          norm_num
        rw [hx, rnE_intCast])]
    norm_num
  · have hk : (0:ℤ) ≤ 23 - e := by omega
    have hkk : (23 - e) = ((23 - e).toNat : ℤ) := (Int.toNat_of_nonneg hk).symm
    set k := (23 - e).toNat with hkdef
    have hx : (n:ℚ) * 2^(23-e) = (((n * 2^k : ℕ) : ℤ) : ℚ) := by
      rw [hkk]
      push_cast
      rw [zpow_natCast]
    rw [round32_of_pos hq, ← he, hx, rnE_intCast]
    push_cast
    rw [zpow_natCast (2:ℚ) k |>.symm, mul_assoc, ← zpow_add₀ (by norm_num : (2:ℚ) ≠ 0)]
    rw [show (k:ℤ) + (e - 23) = 0 by omega]
    norm_num

/-! ## Scalar operations

The pixel pipeline is parameterised by the scalar operations so the same
definitions can be read with the program's float32 semantics (`f32Ops`,
every operation correctly rounded) or with idealized exact rational
arithmetic (`exactOps`, used only for the amended order-independence
statement). -/

structure FOps where
  add : ℚ → ℚ → ℚ
  mul : ℚ → ℚ → ℚ
  div : ℚ → ℚ → ℚ
  ofNat : ℕ → ℚ

/-- The float32 semantics of the Go program: every arithmetic operation and
every integer-to-float conversion is correctly rounded to binary32. -/
def f32Ops : FOps where
  add := fun x y => round32 (x + y)
  mul := fun x y => round32 (x * y)
  div := fun x y => round32 (x / y)
  ofNat := fun n => round32 n

/-- Idealized exact rational arithmetic (no rounding). -/
def exactOps : FOps where
  add := fun x y => x + y
  mul := fun x y => x * y
  div := fun x y => x / y
  ofNat := fun n => n

/-! ## The color data model (`image_combiner.go`, accumulation tool) -/

/-- `floatColor` of the source: three float32 channels, modelled as exact
rationals. -/
structure floatColor where
  r : ℚ
  g : ℚ
  b : ℚ

/-- A pixel in the canonical 16-bit-per-channel representation returned by
Go's `color.Color.RGBA()` (each component at most `0xffff` per that
contract). -/
structure rgba where
  r : ℕ
  g : ℕ
  b : ℕ
  a : ℕ

/-- `floatColor.Add` of the source.  The Go method converts its argument via
`convertToFloatColor`; at every call site in the program the argument is
already a `floatColor`, for which that conversion is the identity
type-assertion, so the model takes a `floatColor` directly. -/
def floatColor.Add (c : floatColor) (ops : FOps) (toAdd : floatColor) : floatColor :=
  { r := ops.add c.r toAdd.r
    g := ops.add c.g toAdd.g
    b := ops.add c.b toAdd.b }

/-- `floatColor.Scale` of the source: componentwise multiplication by a
float32 scalar. -/
def floatColor.Scale (c : floatColor) (ops : FOps) (scale : ℚ) : floatColor :=
  { r := ops.mul c.r scale
    g := ops.mul c.g scale
    b := ops.mul c.b scale }

/-- Go's conversion of a nonnegative in-range float32 to `uint32`:
truncation toward zero.  (Conversion of out-of-range or negative values is
not defined by the Go spec and is never exercised by the claims.) -/
def u32OfFloat (f : ℚ) : ℕ := (⌊f⌋).toNat

/-- `floatColor.RGBA` of the source: render a float color to the canonical
16-bit representation, clamping each channel at `1.0` and otherwise
computing `uint32(channel * float32(0xffff))`.  The multiplication is a
float32 multiplication, hence rounded. -/
def floatColor.RGBA (c : floatColor) : rgba where
  r := if 1 ≤ c.r then 0xffff else u32OfFloat (round32 (c.r * 0xffff))
  g := if 1 ≤ c.g then 0xffff else u32OfFloat (round32 (c.g * 0xffff))
  b := if 1 ≤ c.b then 0xffff else u32OfFloat (round32 (c.b * 0xffff))
  a := 0xffff

/-- `convertToFloatColor` of the source, applied to a non-`floatColor`
color: take the canonical `RGBA()` quadruple and divide each channel by
`0xffff` in float32. -/
def convertToFloatColor (c : rgba) : floatColor where
  r := f32Ops.div (f32Ops.ofNat c.r) 0xffff
  g := f32Ops.div (f32Ops.ofNat c.g) 0xffff
  b := f32Ops.div (f32Ops.ofNat c.b) 0xffff

/-! ## Color parsing -/

/-- Value of one hexadecimal digit, as accepted by Go's
`strconv.ParseUint(·, 16, ·)`. -/
def hexDigitValue (ch : Char) : Option ℕ :=
  if '0' ≤ ch ∧ ch ≤ '9' then some (ch.toNat - '0'.toNat)
  else if 'a' ≤ ch ∧ ch ≤ 'f' then some (ch.toNat - 'a'.toNat + 10)
  else if 'A' ≤ ch ∧ ch ≤ 'F' then some (ch.toNat - 'A'.toNat + 10)
  else none

/-- Go's `strconv.ParseUint(s, 16, bitSize)`: a nonempty string of hex
digits (no sign, no prefix, no underscores with an explicit base), failing
when the value exceeds `2^bitSize - 1`. -/
def parseUintHex (s : String) (bitSize : ℕ) : Option ℕ :=
  if s.isEmpty then none
  else
    match s.data.foldl
        (fun acc ch => acc.bind fun v => (hexDigitValue ch).map fun d => v * 16 + d)
        (some 0) with
    | none => none
    | some v => if v < 2 ^ bitSize then some v else none

/-- `parse24BitColor` of the source: 6 hex digits, one byte per channel,
each normalized by `255.0` in float32.  `(parsed>>16)&0xff` is written
`parsed / 2^16 % 2^8`. -/
def parse24BitColor (value : String) : Except String floatColor :=
  match parseUintHex value 32 with
  | none => .error ("Couldn't parse color " ++ value)
  | some parsed =>
    .ok { r := f32Ops.div (f32Ops.ofNat (parsed / 2^16 % 2^8)) 255
          g := f32Ops.div (f32Ops.ofNat (parsed / 2^8 % 2^8)) 255
          b := f32Ops.div (f32Ops.ofNat (parsed % 2^8)) 255 }

/-- `parse48BitColor` of the source: 12 hex digits, two bytes per channel,
each normalized by `65535.0` in float32. -/
def parse48BitColor (value : String) : Except String floatColor :=
  match parseUintHex value 64 with
  | none => .error ("Couldn't parse color " ++ value)
  | some parsed =>
    .ok { r := f32Ops.div (f32Ops.ofNat (parsed / 2^32 % 2^16)) 65535
          g := f32Ops.div (f32Ops.ofNat (parsed / 2^16 % 2^16)) 65535
          b := f32Ops.div (f32Ops.ofNat (parsed % 2^16)) 65535 }

/-- An 8-bit `color.RGBA` value, as stored in the named-color table. -/
structure rgba8 where
  r : ℕ
  g : ℕ
  b : ℕ
  a : ℕ
deriving DecidableEq

/-- ASCII lower-casing of one character (the fragment of Go's
`strings.ToLower` relevant to the ASCII color names and hex tokens the
program deals with). -/
def charToLower (c : Char) : Char :=
  if 'A' ≤ c ∧ c ≤ 'Z' then Char.ofNat (c.toNat + 32) else c

/-- `strings.ToLower` on ASCII strings. -/
def toLowerStr (s : String) : String := ⟨s.data.map charToLower⟩

/-- `strings.HasPrefix(s, "#")`, the test inside `strings.TrimPrefix`. -/
def startsWithHash (s : String) : Bool :=
  match s.data with
  | c :: _ => c = '#'
  | [] => false

/-- `color.RGBA.RGBA()`: widen each 8-bit component to 16 bits by
replication (`v | v<<8 = v * 257`). -/
def rgba8.toCanonical (c : rgba8) : rgba :=
  { r := c.r * 257, g := c.g * 257, b := c.b * 257, a := c.a * 257 }

/-- Modelled from the spec: the SVG named-color table of the external
`golang.org/x/image/colornames` package ("Accepts an SVG/CSS named color
(case-insensitive)"), restricted to the entries exercised by the claims.
A name not in the table yields the zero `color.RGBA` value, whose zero
alpha marks the miss, exactly as `colornames.Map[name]` does in Go. -/
def colornamesMap (name : String) : rgba8 :=
  if name = "red" then ⟨0xff, 0x00, 0x00, 0xff⟩
  else if name = "green" then ⟨0x00, 0x80, 0x00, 0xff⟩
  else if name = "blue" then ⟨0x00, 0x00, 0xff, 0xff⟩
  else if name = "white" then ⟨0xff, 0xff, 0xff, 0xff⟩
  else if name = "black" then ⟨0x00, 0x00, 0x00, 0xff⟩
  else ⟨0, 0, 0, 0⟩

/-- `parseNamedColor` of the source: lower-case the name, look it up in the
named-color table, and use a zero alpha to detect a missing entry. -/
def parseNamedColor (name : String) : floatColor × Bool :=
  let namedColor := colornamesMap (toLowerStr name)
  let canonical := namedColor.toCanonical
  (convertToFloatColor canonical, decide (canonical.a ≠ 0))

/-- `parseFloatColor` of the source: named colors first (case-insensitive),
then an optional leading `#` is stripped, then 6 or 12 hex digits.
String length is byte length in Go; the two agree on the ASCII inputs the
claims exercise. -/
def parseFloatColor (value : String) : Except String floatColor :=
  let named := parseNamedColor value
  if named.2 then .ok named.1
  else
    let value := if startsWithHash value then value.drop 1 else value
    if value.length = 6 then parse24BitColor value
    else if value.length = 12 then parse48BitColor value
    else .error ("Need a 24- or 48-bit RGB color, got " ++ value)

/-! ## The accumulator canvas (`floatColorImage`) -/

/-- The zero `floatColor`: both the zero value a fresh canvas is filled
with and the float equivalent of `color.Black` returned for out-of-bounds
reads (`Gray{0}.RGBA()` has all color channels zero). -/
def blackFloat : floatColor := ⟨0, 0, 0⟩

/-- `floatColorImage` of the source: a flat pixel slice indexed by
`y*w + x`, with dimensions held as Go `int`s. -/
structure floatColorImage where
  w : ℤ
  h : ℤ
  pixels : List floatColor

/-- `floatColorImage.At`: `color.Black` outside the bounds, otherwise the
stored pixel at index `y*w + x`.  The slice read is modelled by `getD`;
the in-range theorem for well-formed canvases shows the default is never
consulted. -/
def floatColorImage.At (f : floatColorImage) (x y : ℤ) : floatColor :=
  if x < 0 ∨ y < 0 ∨ f.w ≤ x ∨ f.h ≤ y then blackFloat
  else f.pixels.getD (y * f.w + x).toNat blackFloat

/-- `floatColorImage.Add`: silently ignore out-of-bounds coordinates,
otherwise add the color into the stored pixel at index `y*w + x`. -/
def floatColorImage.Add (f : floatColorImage) (ops : FOps) (x y : ℤ)
    (toAdd : floatColor) : floatColorImage :=
  if x < 0 ∨ y < 0 ∨ f.w ≤ x ∨ f.h ≤ y then f
  else
    let pixel := f.pixels.getD (y * f.w + x).toNat blackFloat
    { f with pixels := f.pixels.set (y * f.w + x).toNat (pixel.Add ops toAdd) }

/-- `newFloatColorImage` of the source: positive bounds required;
`make([]floatColor, w*h)` fills the canvas with the zero color. -/
def newFloatColorImage (w h : ℤ) : Except String floatColorImage :=
  if w ≤ 0 ∨ h ≤ 0 then .error "Image bounds must be positive"
  else .ok ⟨w, h, List.replicate (w * h).toNat blackFloat⟩

/-! ## Decoded input images and brightness -/

/-- A decoded input image: the external decoder collaborator's contract —
bounds of width `w` and height `h` with origin `(0,0)`, and per-coordinate
pixel lookup in the canonical 16-bit RGBA representation. -/
structure decodedImage where
  w : ℕ
  h : ℕ
  px : ℕ → ℕ → rgba

/-- `convertToBrightness` of the source:
`float32(r+g+b) / (3.0*65535.0)`.  The channel sum is a `uint32` addition
(reduced mod `2^32`); the constant `3.0*65535.0` is computed exactly by the
Go compiler and equals `196605`, which is exactly representable in
binary32. -/
def convertToBrightness (ops : FOps) (c : rgba) : ℚ :=
  ops.div (ops.ofNat ((c.r + c.g + c.b) % 2 ^ 32)) 196605

/-- `addColor` of the source (the parameter shadowing the function name is
the Go code's own): for every pixel of the input image's own bounds, scale
the assigned color by the pixel's brightness and add it into the canvas at
the same coordinate. -/
def addColor (ops : FOps) (dest : floatColorImage) (pic : decodedImage)
    (addColor : floatColor) : floatColorImage :=
  (List.range pic.h).foldl
    (fun d (y : ℕ) =>
      (List.range pic.w).foldl
        (fun d2 (x : ℕ) =>
          d2.Add ops (x : ℤ) (y : ℤ)
            (addColor.Scale ops (convertToBrightness ops (pic.px x y))))
        d)
    dest

/-! ## File access and the accumulation pipeline -/

/-- Result of opening and decoding one file, the abstraction of
`os.Open` + `image.Decode` used by both tools.  The map from names to
results is deterministic: the program decodes each file twice (once for
sizing, once for pixels) and both passes see the same data. -/
inductive fileResult where
  | openFail (cause : String)
  | decodeFail (cause : String)
  | ok (img : decodedImage)

/-- `imageInput` of the source: a filename with its parsed color. -/
structure imageInput where
  filename : String
  colorValue : floatColor

/-- The loop of `getMaxDimensions` (accumulation tool), carrying the
running maxima exactly as the Go loop's `maxW`/`maxH` locals do. -/
def getMaxDimensionsLoop (fs : String → fileResult) :
    List imageInput → ℕ → ℕ → Except String (ℕ × ℕ)
  | [], maxW, maxH => .ok (maxW, maxH)
  | inputPic :: rest, maxW, maxH =>
    match fs inputPic.filename with
    | .openFail cause =>
      .error ("Failed opening " ++ inputPic.filename ++ ": " ++ cause)
    | .decodeFail cause =>
      .error ("Failed decoding " ++ inputPic.filename ++ ": " ++ cause)
    | .ok pic =>
      getMaxDimensionsLoop fs rest
        (if maxW < pic.w then pic.w else maxW)
        (if maxH < pic.h then pic.h else maxH)

/-- `getMaxDimensions` of the source (accumulation tool): scan every input,
recording the maximum width and height; fail on the first file that cannot
be opened or decoded. -/
def getMaxDimensions (fs : String → fileResult) (imageFiles : List imageInput) :
    Except String (ℕ × ℕ) :=
  getMaxDimensionsLoop fs imageFiles 0 0

/-- The per-input loop of `combineImages` (accumulation tool): decode each
input in order and fold it into the canvas with `addColor`.  (In the Go
error messages the whole `imageInput` struct is formatted with `%s`; the
model keeps the filename, the part the claims are about.) -/
def combineImagesLoop (ops : FOps) (fs : String → fileResult) :
    List imageInput → floatColorImage → Except String floatColorImage
  | [], combined => .ok combined
  | imageFile :: rest, combined =>
    match fs imageFile.filename with
    | .openFail cause =>
      .error ("Failed opening file " ++ imageFile.filename ++ ": " ++ cause)
    | .decodeFail cause =>
      .error ("Failed decoding image " ++ imageFile.filename ++ ": " ++ cause)
    | .ok pic =>
      combineImagesLoop ops fs rest (addColor ops combined pic imageFile.colorValue)

/-- `combineImages` of the source (accumulation tool). -/
def combineImages (ops : FOps) (fs : String → fileResult)
    (imageFiles : List imageInput) : Except String floatColorImage :=
  match getMaxDimensions fs imageFiles with
  | .error e => .error ("Failed getting image dimensions: " ++ e)
  | .ok (w, h) =>
    match newFloatColorImage (w : ℤ) (h : ℤ) with
    | .error e => .error ("Failed creating new image: " ++ e)
    | .ok combined => combineImagesLoop ops fs imageFiles combined

/-! ## Argument parsing and the accumulation tool's `run` -/

/-- The pair-consuming loop of `parseArguments`: the Go loop reads
`os.Args[i*2+1]` and `os.Args[i*2+2]` for each pair index, i.e. it chunks
`os.Args` minus the program name and the trailing output path into
(filename, color) pairs, failing on the first invalid color.  The
singleton branch is unreachable: the caller has checked the list has even
length. -/
def parseArgumentsLoop : List String → Except String (List imageInput)
  | [] => .ok []
  | filename :: colorStr :: rest =>
    match parseFloatColor colorStr with
    | .error e => .error ("Invalid color for image " ++ filename ++ ": " ++ e)
    | .ok parsedColor =>
      match parseArgumentsLoop rest with
      | .error e => .error e
      | .ok tail => .ok (⟨filename, parsedColor⟩ :: tail)
  | [_] => .ok []

/-- `parseArguments` of the source, over `os.Args` (program name
included): at least one image/color pair, an even total length (so an odd
count after the program name), the last argument being the output path. -/
def parseArguments (args : List String) : Except String (List imageInput × String) :=
  if args.length ≤ 2 then
    .error "Invalid arguments: at least one image/color must be provided"
  else if args.length % 2 ≠ 0 then
    .error "Invalid arguments: each image must have a corresponding color"
  else
    match parseArgumentsLoop ((args.drop 1).dropLast) with
    | .error e => .error e
    | .ok toReturn => .ok (toReturn, args.getLastD "")

/-- The world the accumulation tool runs in: the argument vector and the
abstracted file system operations. -/
structure accumWorld where
  args : List String
  fs : String → fileResult
  createOk : String → Bool
  encodeOk : Bool

/-- Observable outcome of `run`: the process exit code and whether the
usage banner was printed. -/
structure runOutcome where
  exitCode : ℕ
  usagePrinted : Bool

/-- `run` of the accumulation tool: argument errors print the usage banner
and exit 1; combine/create/encode errors exit 1 without the banner;
success exits 0.  `main` is `os.Exit(run())`. -/
def run (w : accumWorld) : runOutcome :=
  match parseArguments w.args with
  | .error _ => ⟨1, true⟩
  | .ok (toCombine, outputName) =>
    match combineImages f32Ops w.fs toCombine with
    | .error _ => ⟨1, false⟩
    | .ok _ =>
      if w.createOk outputName then
        if w.encodeOk then ⟨0, false⟩ else ⟨1, false⟩
      else ⟨1, false⟩

/-! ## The channel-assignment tool

The second `main` package of the repository.  Its `convertToGrayscale`,
`getMaxDimensions`, `combineImages` and `run` live in their own namespace
since Go compiles the two tools separately. -/

namespace Channel

/-- `convertToGrayscale` of the channel tool: the unnormalized `uint32`
average `(r+g+b)/3` of the canonical channels (sum reduced mod `2^32`,
integer division). -/
def convertToGrayscale (c : rgba) : ℕ :=
  (c.r + c.g + c.b) % 2 ^ 32 / 3

/-- The loop of the channel tool's `getMaxDimensions` (same shape as the
accumulation tool's, over plain filenames). -/
def getMaxDimensionsLoop (fs : String → fileResult) :
    List String → ℕ → ℕ → Except String (ℕ × ℕ)
  | [], maxW, maxH => .ok (maxW, maxH)
  | filename :: rest, maxW, maxH =>
    match fs filename with
    | .openFail cause => .error ("Failed opening " ++ filename ++ ": " ++ cause)
    | .decodeFail cause => .error ("Failed decoding " ++ filename ++ ": " ++ cause)
    | .ok pic =>
      getMaxDimensionsLoop fs rest
        (if maxW < pic.w then pic.w else maxW)
        (if maxH < pic.h then pic.h else maxH)

/-- `getMaxDimensions` of the channel tool. -/
def getMaxDimensions (fs : String → fileResult) (imageFiles : List String) :
    Except String (ℕ × ℕ) :=
  getMaxDimensionsLoop fs imageFiles 0 0

/-- An `image.RGBA64` output image: 16-bit integer channels on a flat
`y*w + x` grid (the `Pix` buffer with its stride abstracted to the same
indexing the source uses everywhere else). -/
structure RGBA64Image where
  w : ℤ
  h : ℤ
  pixels : List rgba

/-- `image.RGBA64.RGBA64At`: the zero `color.RGBA64` outside the bounds,
the stored pixel otherwise. -/
def RGBA64Image.RGBA64At (img : RGBA64Image) (x y : ℤ) : rgba :=
  if x < 0 ∨ y < 0 ∨ img.w ≤ x ∨ img.h ≤ y then ⟨0, 0, 0, 0⟩
  else img.pixels.getD (y * img.w + x).toNat ⟨0, 0, 0, 0⟩

/-- `image.RGBA64.Set`: a silent no-op outside the bounds, a pixel store
otherwise. -/
def RGBA64Image.Set (img : RGBA64Image) (x y : ℤ) (c : rgba) : RGBA64Image :=
  if x < 0 ∨ y < 0 ∨ img.w ≤ x ∨ img.h ≤ y then img
  else { img with pixels := img.pixels.set (y * img.w + x).toNat c }

/-- `image.NewRGBA64(image.Rect(0, 0, w, h))`: all samples zero. -/
def newRGBA64 (w h : ℤ) : RGBA64Image :=
  ⟨w, h, List.replicate (w * h).toNat ⟨0, 0, 0, 0⟩⟩

/-- The per-pixel channel store of `setChannel`'s switch statement for a
valid channel index (0 = R, 1 = G, 2 = B). -/
def writeChannel (c : rgba) (channel : ℕ) (grayscale : ℕ) : rgba :=
  if channel = 0 then { c with r := grayscale }
  else if channel = 1 then { c with g := grayscale }
  else { c with b := grayscale }

/-- `setChannel` of the channel tool: for every pixel of the input image's
own bounds, write `uint16(convertToGrayscale(...))` into the selected
channel of the output, leaving the other channels of the pixel as they
were.  A channel index outside 0..2 hits the switch's `panic("Bad
channel")` on the first pixel, modelled as `none`; with empty bounds the
loop body never runs, so no panic occurs. -/
def setChannel (dest : RGBA64Image) (pic : decodedImage) (channel : ℕ) :
    Option RGBA64Image :=
  if 3 ≤ channel ∧ pic.w ≠ 0 ∧ pic.h ≠ 0 then none
  else
    some
      ((List.range pic.h).foldl
        (fun d (y : ℕ) =>
          (List.range pic.w).foldl
            (fun d2 (x : ℕ) =>
              let grayscale := convertToGrayscale (pic.px x y) % 2 ^ 16
              let c := d2.RGBA64At (x : ℤ) (y : ℤ)
              d2.Set (x : ℤ) (y : ℤ) (writeChannel c channel grayscale))
            d)
        dest)

/-- The per-input loop of the channel tool's `combineImages`, with the
channel index coming from the loop counter (`for i, imageFile := range`).
A `none` from `setChannel` would be the Go panic; it is unreachable from
`combineImages`, whose input list has at most 3 entries. -/
def combineImagesLoop (fs : String → fileResult) :
    List (ℕ × String) → RGBA64Image → Except String RGBA64Image
  | [], combined => .ok combined
  | (i, imageFile) :: rest, combined =>
    match fs imageFile with
    | .openFail cause =>
      .error ("Failed opening file " ++ imageFile ++ ": " ++ cause)
    | .decodeFail cause =>
      .error ("Failed decoding image " ++ imageFile ++ ": " ++ cause)
    | .ok pic =>
      match setChannel combined pic i with
      | none => .error "panic: Bad channel"
      | some combined2 => combineImagesLoop fs rest combined2

/-- `combineImages` of the channel tool: at most 3 channel inputs, then
size resolution, then one `setChannel` pass per input. -/
def combineImages (fs : String → fileResult) (imageFiles : List String) :
    Except String RGBA64Image :=
  if 3 < imageFiles.length then
    .error "Using more than 3 channels is unsupported."
  else
    match getMaxDimensions fs imageFiles with
    | .error e => .error ("Failed getting image dimensions: " ++ e)
    | .ok (w, h) =>
      combineImagesLoop fs imageFiles.enum (newRGBA64 (w : ℤ) (h : ℤ))

/-- The world the channel tool runs in: the four flag values after
`flag.Parse()` (the empty string is each flag's default, i.e. the flag was
not supplied) and the abstracted file system. -/
structure chanWorld where
  redName : String
  greenName : String
  blueName : String
  outputName : String
  fs : String → fileResult
  createOk : String → Bool
  encodeOk : Bool

/-- Observable outcome of the channel tool's `run`: the exit code and
whether `combineImages` was reached. -/
structure chanOutcome where
  exitCode : ℕ
  combineAttempted : Bool

/-- `run` of the channel tool: every color flag and the output flag are
required; failures exit 1.  The missing-flag checks happen before any
combining. -/
def run (w : chanWorld) : chanOutcome :=
  if w.redName = "" ∨ w.greenName = "" ∨ w.blueName = "" then ⟨1, false⟩
  else if w.outputName = "" then ⟨1, false⟩
  else
    match combineImages w.fs [w.redName, w.greenName, w.blueName] with
    | .error _ => ⟨1, true⟩
    | .ok _ =>
      if w.createOk w.outputName then
        if w.encodeOk then ⟨0, true⟩ else ⟨1, true⟩
      else ⟨1, true⟩

end Channel

/-! ## Canvas lemmas: indices, well-formedness, and the effect of `Add` -/

/-- In-bounds predicate for a canvas coordinate. -/
def inB (f : floatColorImage) (x y : ℤ) : Prop :=
  0 ≤ x ∧ 0 ≤ y ∧ x < f.w ∧ y < f.h

/-- A canvas is well formed when its pixel slice has exactly `w*h`
entries, as guaranteed by `newFloatColorImage`. -/
def floatColorImage.wfc (f : floatColorImage) : Prop :=
  f.pixels.length = (f.w * f.h).toNat

theorem oob_iff {w h x y : ℤ} :
    (x < 0 ∨ y < 0 ∨ w ≤ x ∨ h ≤ y) ↔ ¬(0 ≤ x ∧ 0 ≤ y ∧ x < w ∧ y < h) := by
  omega

/-- The flat index of an in-bounds coordinate is inside the pixel slice. -/
theorem idx_lt {w h x y : ℤ} (hx : 0 ≤ x) (hy : 0 ≤ y) (hxw : x < w) (hyh : y < h) :
    (y * w + x).toNat < (w * h).toNat := by
  have hw : 0 < w := lt_of_le_of_lt hx hxw
  have h3 : (y + 1) * w ≤ h * w :=
    mul_le_mul_of_nonneg_right (by omega) (le_of_lt hw)
  have h1 : y * w + x < w * h := by
    have h2 : y * w + x < (y + 1) * w := by nlinarith
    nlinarith
  have h4 : 0 ≤ y * w := mul_nonneg hy (le_of_lt hw)
  omega

/-- Distinct in-bounds coordinates have distinct flat indices. -/
theorem idx_inj {w x y x' y' : ℤ} (hx : 0 ≤ x) (hxw : x < w)
    (hx' : 0 ≤ x') (hxw' : x' < w) (he : y * w + x = y' * w + x') :
    x = x' ∧ y = y' := by
  have hw : 0 < w := lt_of_le_of_lt hx hxw
  have hy : y = y' := by
    by_contra hne
    rcases lt_or_gt_of_ne hne with hlt | hgt
    · have h1 : (y + 1) * w ≤ y' * w :=
        mul_le_mul_of_nonneg_right (by omega) (le_of_lt hw)
      nlinarith
    · have h1 : (y' + 1) * w ≤ y * w :=
        mul_le_mul_of_nonneg_right (by omega) (le_of_lt hw)
      nlinarith
  subst hy
  omega

theorem idx_toNat_inj {w x y x' y' : ℤ} (hx : 0 ≤ x) (hy : 0 ≤ y)
    (hxw : x < w) (hx' : 0 ≤ x') (hy' : 0 ≤ y') (hxw' : x' < w)
    (he : (y * w + x).toNat = (y' * w + x').toNat) : x = x' ∧ y = y' := by
  have hw : 0 < w := lt_of_le_of_lt hx hxw
  have n1 : 0 ≤ y * w := mul_nonneg hy (le_of_lt hw)
  have n2 : 0 ≤ y' * w := mul_nonneg hy' (le_of_lt hw)
  have : y * w + x = y' * w + x' := by omega
  exact idx_inj hx hxw hx' hxw' this

theorem At_oob (f : floatColorImage) {x y : ℤ} (h : ¬ inB f x y) :
    f.At x y = blackFloat := by
  unfold floatColorImage.At
  rw [if_pos (oob_iff.2 h)]

theorem At_inb (f : floatColorImage) {x y : ℤ} (h : inB f x y) :
    f.At x y = f.pixels.getD (y * f.w + x).toNat blackFloat := by
  unfold floatColorImage.At
  rw [if_neg]
  rw [oob_iff]
  exact not_not_intro h

theorem Add_oob (f : floatColorImage) (ops : FOps) {x y : ℤ} (c : floatColor)
    (h : ¬ inB f x y) : f.Add ops x y c = f := by
  unfold floatColorImage.Add
  rw [if_pos (oob_iff.2 h)]

theorem Add_w (f : floatColorImage) (ops : FOps) (x y : ℤ) (c : floatColor) :
    (f.Add ops x y c).w = f.w := by
  unfold floatColorImage.Add
  split <;> rfl

theorem Add_h (f : floatColorImage) (ops : FOps) (x y : ℤ) (c : floatColor) :
    (f.Add ops x y c).h = f.h := by
  unfold floatColorImage.Add
  split <;> rfl

theorem Add_wfc {f : floatColorImage} (ops : FOps) (x y : ℤ) (c : floatColor)
    (h : f.wfc) : (f.Add ops x y c).wfc := by
  unfold floatColorImage.Add
  split
  · exact h
  · unfold floatColorImage.wfc at h ⊢
    simpa using h

theorem inB_Add (f : floatColorImage) (ops : FOps) (x y x' y' : ℤ) (c : floatColor) :
    inB (f.Add ops x y c) x' y' ↔ inB f x' y' := by
  unfold inB
  rw [Add_w, Add_h]


instance (f : floatColorImage) (x y : ℤ) : Decidable (inB f x y) := by
  unfold inB
  infer_instance

theorem Add_inb (f : floatColorImage) (ops : FOps) (c : floatColor)
    {x y : ℤ} (h : inB f x y) :
    f.Add ops x y c =
      { f with pixels := (f.pixels.set (y * f.w + x).toNat
          ((f.pixels.getD (y * f.w + x).toNat blackFloat).Add ops c)) } := by
  unfold floatColorImage.Add
  rw [if_neg]
  rw [oob_iff]
  exact not_not_intro h

theorem Add_pixels_inb (f : floatColorImage) (ops : FOps) (c : floatColor)
    {x y : ℤ} (h : inB f x y) :
    (f.Add ops x y c).pixels = f.pixels.set (y * f.w + x).toNat
      ((f.pixels.getD (y * f.w + x).toNat blackFloat).Add ops c) := by
  rw [Add_inb f ops c h]

/-- The effect of one `Add` on one pixel read: only the written in-bounds
coordinate changes, and it changes by exactly one `floatColor.Add`. -/
theorem Add_At (f : floatColorImage) (ops : FOps) (c : floatColor)
    {x y : ℤ} (x' y' : ℤ) (hwf : f.wfc) :
    (f.Add ops x y c).At x' y' =
      if x' = x ∧ y' = y ∧ inB f x y then (f.At x y).Add ops c
      else f.At x' y' := by
  by_cases hin : inB f x y
  · have hidx : (y * f.w + x).toNat < f.pixels.length := by
      rw [hwf]; exact idx_lt hin.1 hin.2.1 hin.2.2.1 hin.2.2.2
    by_cases heq : x' = x ∧ y' = y
    · obtain ⟨hx, hy⟩ := heq
      subst hx; subst hy
      rw [if_pos ⟨rfl, rfl, hin⟩]
      rw [At_inb f hin]
      rw [At_inb _ ((inB_Add f ops x' y' x' y' c).2 hin)]
      rw [Add_pixels_inb f ops c hin, Add_w]
      rw [List.getD_eq_getElem?_getD, List.getElem?_set_self',
        List.getElem?_eq_getElem hidx]
      rfl
    · rw [if_neg (by tauto)]
      by_cases hin' : inB f x' y'
      · have hne : (y' * f.w + x').toNat ≠ (y * f.w + x).toNat := by
          intro hcontra
          have := idx_toNat_inj hin'.1 hin'.2.1 hin'.2.2.1 hin.1 hin.2.1 hin.2.2.1 hcontra
          tauto
        rw [At_inb f hin']
        rw [At_inb _ ((inB_Add f ops x y x' y' c).2 hin')]
        rw [Add_pixels_inb f ops c hin, Add_w]
        rw [List.getD_eq_getElem?_getD, List.getElem?_set_ne (Ne.symm hne),
          ← List.getD_eq_getElem?_getD]
      · rw [At_oob f hin']
        rw [At_oob _ (fun hcon => hin' ((inB_Add f ops x y x' y' c).1 hcon))]
  · rw [Add_oob f ops c hin, if_neg (by tauto)]

/-! ## Loop lemmas: the per-pixel effect of `addColor` -/

theorem foldl_preserve {σ α : Type _} (P : σ → Prop) (step : σ → α → σ)
    (hstep : ∀ d a, P d → P (step d a)) :
    ∀ (l : List α) (d : σ), P d → P (l.foldl step d) := by
  intro l
  induction l with
  | nil => intro d h; exact h
  | cons a l ih => intro d h; exact ih _ (hstep d a h)

/-- Shape and well-formedness are preserved by any row of `Add`s. -/
theorem rowFold_shape (ops : FOps) (y : ℕ) (contrib : ℕ → floatColor)
    (xs : List ℕ) (d : floatColorImage) :
    (xs.foldl (fun d2 x => d2.Add ops (x:ℤ) (y:ℤ) (contrib x)) d).w = d.w ∧
    (xs.foldl (fun d2 x => d2.Add ops (x:ℤ) (y:ℤ) (contrib x)) d).h = d.h ∧
    (d.wfc → (xs.foldl (fun d2 x => d2.Add ops (x:ℤ) (y:ℤ) (contrib x)) d).wfc) := by
  have := foldl_preserve
    (fun f => f.w = d.w ∧ f.h = d.h ∧ (d.wfc → f.wfc))
    (fun d2 x => d2.Add ops (x:ℤ) (y:ℤ) (contrib x))
    (fun d2 x h => by
      refine ⟨?_, ?_, ?_⟩
      · rw [Add_w]; exact h.1
      · rw [Add_h]; exact h.2.1
      · intro hw; exact Add_wfc ops _ _ _ (h.2.2 hw))
    xs d ⟨rfl, rfl, id⟩
  exact this

theorem inB_of_shape {f d : floatColorImage} (hw : f.w = d.w) (hh : f.h = d.h)
    (x y : ℤ) : inB f x y ↔ inB d x y := by
  unfold inB
  rw [hw, hh]

/-- The per-pixel effect of one row of the `addColor` loop. -/
theorem rowFold_At (ops : FOps) (y : ℕ) (contrib : ℕ → floatColor) (x' y' : ℤ) :
    ∀ (xs : List ℕ) (d : floatColorImage), d.wfc → xs.Nodup →
    (xs.foldl (fun d2 x => d2.Add ops (x:ℤ) (y:ℤ) (contrib x)) d).At x' y' =
      (if (∃ x ∈ xs, (x:ℤ) = x') ∧ y' = (y:ℤ) ∧ inB d x' y'
       then (d.At x' y').Add ops (contrib x'.toNat)
       else d.At x' y') := by
  intro xs
  induction xs with
  | nil =>
    intro d _ _
    rw [List.foldl_nil, if_neg]
    rintro ⟨⟨x, hx, _⟩, -⟩
    exact List.not_mem_nil x hx
  | cons a xs ih =>
    intro d hwf hnd
    have hand : a ∉ xs := (List.nodup_cons.1 hnd).1
    set d1 := d.Add ops (a:ℤ) (y:ℤ) (contrib a) with hd1
    have hwf1 : d1.wfc := Add_wfc ops _ _ _ hwf
    have hinB1 : ∀ u v, inB d1 u v ↔ inB d u v := fun u v =>
      inB_Add d ops (a:ℤ) (y:ℤ) u v (contrib a)
    rw [List.foldl_cons, ih d1 hwf1 (List.nodup_cons.1 hnd).2]
    have hAt1 : d1.At x' y' =
        (if x' = (a:ℤ) ∧ y' = (y:ℤ) ∧ inB d (a:ℤ) (y:ℤ)
         then (d.At (a:ℤ) (y:ℤ)).Add ops (contrib a)
         else d.At x' y') := Add_At d ops (contrib a) x' y' hwf
    by_cases hy : y' = (y:ℤ)
    · by_cases hin : inB d x' y'
      · by_cases hax : (a:ℤ) = x'
        · have hnotxs : ¬ ∃ x ∈ xs, (x:ℤ) = x' := by
            rintro ⟨x, hx, hxx⟩
            apply hand
            have : x = a := by omega
            rwa [← this]
          rw [if_neg (by
            rintro ⟨hex, -, -⟩
            exact hnotxs hex)]
          rw [hAt1, if_pos ⟨hax.symm, hy, by rw [hax, ← hy]; exact hin⟩]
          rw [if_pos ⟨⟨a, List.mem_cons_self a xs, hax⟩, hy, hin⟩]
          rw [← hax, ← hy]
          have : ((a:ℤ)).toNat = a := Int.toNat_natCast a
          rw [this]
        · have hax' : ¬ (x' = (a:ℤ) ∧ y' = (y:ℤ) ∧ inB d (a:ℤ) (y:ℤ)) := by
            rintro ⟨h1, h2, h3⟩
            exact hax (h1.symm)
          rw [hAt1, if_neg hax']
          by_cases hex : ∃ x ∈ xs, (x:ℤ) = x'
          · rw [if_pos ⟨hex, hy, (hinB1 x' y').2 hin⟩,
              if_pos ⟨⟨x'.toNat, by
                obtain ⟨x, hx, hxx⟩ := hex
                have : x'.toNat = x := by omega
                rw [this]; exact List.mem_cons_of_mem a hx, by
                  obtain ⟨x, hx, hxx⟩ := hex
                  omega⟩, hy, hin⟩]
          · rw [if_neg (by
              rintro ⟨hex1, -, -⟩
              exact hex hex1), if_neg (by
              rintro ⟨⟨x, hx, hxx⟩, -, -⟩
              rcases List.mem_cons.1 hx with h | h
              · exact hax (by rw [← h]; exact hxx)
              · exact hex ⟨x, h, hxx⟩)]
      · have hnin1 : ¬ inB d1 x' y' := fun hcon => hin ((hinB1 x' y').1 hcon)
        rw [if_neg (by tauto), if_neg (by tauto), hAt1, if_neg (by
          rintro ⟨h1, h2, h3⟩
          rw [h1, h2] at hin
          exact hin h3)]
    · rw [if_neg (by tauto), if_neg (by tauto), hAt1, if_neg (by tauto)]

theorem exists_range_cast (n : ℕ) (x' : ℤ) :
    (∃ x ∈ List.range n, (x:ℤ) = x') ↔ 0 ≤ x' ∧ x' < (n:ℤ) := by
  constructor
  · rintro ⟨x, hx, rfl⟩
    rw [List.mem_range] at hx
    constructor
    · positivity
    · exact_mod_cast hx
  · rintro ⟨h0, hn⟩
    refine ⟨x'.toNat, ?_, by omega⟩
    rw [List.mem_range]
    omega

/-- The per-pixel effect of the outer (per-row) loop of `addColor`. -/
theorem colFold_At (ops : FOps) (pic : decodedImage) (c : floatColor) (x' y' : ℤ) :
    ∀ (ys : List ℕ) (d : floatColorImage), d.wfc → ys.Nodup →
    (ys.foldl
      (fun d (y : ℕ) =>
        (List.range pic.w).foldl
          (fun d2 (x : ℕ) =>
            d2.Add ops (x:ℤ) (y:ℤ) (c.Scale ops (convertToBrightness ops (pic.px x y))))
          d)
      d).At x' y' =
      (if (∃ y ∈ ys, (y:ℤ) = y') ∧ (0 ≤ x' ∧ x' < (pic.w:ℤ)) ∧ inB d x' y'
       then (d.At x' y').Add ops (c.Scale ops (convertToBrightness ops (pic.px x'.toNat y'.toNat)))
       else d.At x' y') := by
  intro ys
  induction ys with
  | nil =>
    intro d _ _
    rw [List.foldl_nil, if_neg]
    rintro ⟨⟨yy, hyy, _⟩, -⟩
    exact List.not_mem_nil yy hyy
  | cons b ys ih =>
    intro d hwf hnd
    have hbnd : b ∉ ys := (List.nodup_cons.1 hnd).1
    set contribRow : ℕ → ℕ → floatColor :=
      fun yy x => c.Scale ops (convertToBrightness ops (pic.px x yy)) with hcr
    set d1 := (List.range pic.w).foldl
      (fun d2 (x : ℕ) => d2.Add ops (x:ℤ) (b:ℤ) (contribRow b x)) d with hd1
    have hshape := rowFold_shape ops b (contribRow b) (List.range pic.w) d
    have hwf1 : d1.wfc := hshape.2.2 hwf
    have hinB1 : ∀ u v, inB d1 u v ↔ inB d u v := fun u v =>
      inB_of_shape hshape.1 hshape.2.1 u v
    have hAt1 : d1.At x' y' =
        (if (∃ x ∈ List.range pic.w, (x:ℤ) = x') ∧ y' = (b:ℤ) ∧ inB d x' y'
         then (d.At x' y').Add ops (contribRow b x'.toNat)
         else d.At x' y') :=
      rowFold_At ops b (contribRow b) x' y' (List.range pic.w) d hwf (List.nodup_range _)
    rw [List.foldl_cons, ih d1 hwf1 (List.nodup_cons.1 hnd).2]
    by_cases hxr : 0 ≤ x' ∧ x' < (pic.w:ℤ)
    · by_cases hin : inB d x' y'
      · by_cases hby : (b:ℤ) = y'
        · have hnotys : ¬ ∃ yy ∈ ys, (yy:ℤ) = y' := by
            rintro ⟨yy, hyy, hyyx⟩
            apply hbnd
            have : yy = b := by omega
            rwa [← this]
          rw [if_neg (by
            rintro ⟨hex, -, -⟩
            exact hnotys hex)]
          rw [hAt1, if_pos ⟨(exists_range_cast pic.w x').2 hxr, hby.symm, hin⟩]
          rw [if_pos ⟨⟨b, List.mem_cons_self b ys, hby⟩, hxr, hin⟩]
          have : y'.toNat = b := by omega
          rw [this]
        · have hb' : ¬ ((∃ x ∈ List.range pic.w, (x:ℤ) = x') ∧ y' = (b:ℤ) ∧ inB d x' y') := by
            rintro ⟨-, h2, -⟩
            exact hby h2.symm
          rw [hAt1, if_neg hb']
          by_cases hex : ∃ yy ∈ ys, (yy:ℤ) = y'
          · rw [if_pos ⟨hex, hxr, (hinB1 x' y').2 hin⟩,
              if_pos ⟨⟨y'.toNat, by
                obtain ⟨yy, hyy, hyyx⟩ := hex
                have : y'.toNat = yy := by omega
                rw [this]; exact List.mem_cons_of_mem b hyy, by
                  obtain ⟨yy, hyy, hyyx⟩ := hex
                  omega⟩, hxr, hin⟩]
          · rw [if_neg (by
              rintro ⟨hex1, -, -⟩
              exact hex hex1), if_neg (by
              rintro ⟨⟨yy, hyy, hyyx⟩, -, -⟩
              rcases List.mem_cons.1 hyy with h | h
              · exact hby (by rw [← h]; exact hyyx)
              · exact hex ⟨yy, h, hyyx⟩)]
      · have hnin1 : ¬ inB d1 x' y' := fun hcon => hin ((hinB1 x' y').1 hcon)
        rw [if_neg (by tauto), if_neg (by tauto), hAt1, if_neg (by tauto)]
    · rw [if_neg (by tauto), if_neg (by tauto), hAt1, if_neg (by
        rintro ⟨hex1, -, -⟩
        exact hxr ((exists_range_cast pic.w x').1 hex1))]

/-- `addColor` preserves the canvas shape and well-formedness. -/
theorem addColor_shape (ops : FOps) (dest : floatColorImage) (pic : decodedImage)
    (c : floatColor) :
    (addColor ops dest pic c).w = dest.w ∧ (addColor ops dest pic c).h = dest.h ∧
    (dest.wfc → (addColor ops dest pic c).wfc) := by
  unfold addColor
  exact foldl_preserve
    (fun f => f.w = dest.w ∧ f.h = dest.h ∧ (dest.wfc → f.wfc))
    _
    (fun d y h => by
      have hs := rowFold_shape ops y
        (fun x => c.Scale ops (convertToBrightness ops (pic.px x y))) (List.range pic.w) d
      refine ⟨hs.1.trans h.1, hs.2.1.trans h.2.1, fun hw => ?_⟩
      exact hs.2.2 (h.2.2 hw))
    (List.range pic.h) dest ⟨rfl, rfl, id⟩

/-- The per-pixel effect of one full `addColor` pass: inside both the
canvas and the input image's own bounds, exactly one weighted contribution
is added; everywhere else the canvas pixel is untouched. -/
theorem addColor_At (ops : FOps) (dest : floatColorImage) (pic : decodedImage)
    (c : floatColor) (x' y' : ℤ) (hwf : dest.wfc) :
    (addColor ops dest pic c).At x' y' =
      (if (0 ≤ y' ∧ y' < (pic.h:ℤ)) ∧ (0 ≤ x' ∧ x' < (pic.w:ℤ)) ∧ inB dest x' y'
       then (dest.At x' y').Add ops
         (c.Scale ops (convertToBrightness ops (pic.px x'.toNat y'.toNat)))
       else dest.At x' y') := by
  unfold addColor
  rw [colFold_At ops pic c x' y' (List.range pic.h) dest hwf (List.nodup_range _)]
  exact if_congr (by rw [exists_range_cast]) rfl rfl

/-! ## The per-pixel content of the full accumulation pass -/

/-- Derived description of what one input contributes to pixel `(x', y')`
of the canvas: inside the input's own bounds, one brightness-weighted
color; outside, nothing. -/
def contribStep (ops : FOps) (fs : String → fileResult) (x' y' : ℤ)
    (v : floatColor) (inp : imageInput) : floatColor :=
  match fs inp.filename with
  | .ok pic =>
    if (0 ≤ y' ∧ y' < (pic.h:ℤ)) ∧ (0 ≤ x' ∧ x' < (pic.w:ℤ)) then
      v.Add ops (inp.colorValue.Scale ops (convertToBrightness ops (pic.px x'.toNat y'.toNat)))
    else v
  | _ => v

/-- When every input decodes, the combine loop succeeds and each in-bounds
canvas pixel is the left fold of the per-input contributions over the
inputs in argument order. -/
theorem combineImagesLoop_At (ops : FOps) (fs : String → fileResult) :
    ∀ (inputs : List imageInput) (d : floatColorImage), d.wfc →
    (∀ inp ∈ inputs, ∃ pic, fs inp.filename = fileResult.ok pic) →
    ∃ result, combineImagesLoop ops fs inputs d = .ok result ∧
      result.w = d.w ∧ result.h = d.h ∧ result.wfc ∧
      ∀ x' y', inB d x' y' →
        result.At x' y' = inputs.foldl (contribStep ops fs x' y') (d.At x' y') := by
  intro inputs
  induction inputs with
  | nil =>
    intro d hwf _
    exact ⟨d, rfl, rfl, rfl, hwf, fun x' y' _ => rfl⟩
  | cons inp rest ih =>
    intro d hwf hok
    obtain ⟨pic, hpic⟩ := hok inp (List.mem_cons_self _ _)
    have hshape := addColor_shape ops d pic inp.colorValue
    set d1 := addColor ops d pic inp.colorValue with hd1
    obtain ⟨result, hres, hw, hh, hwfres, hAt⟩ :=
      ih d1 (hshape.2.2 hwf) (fun i hi => hok i (List.mem_cons_of_mem _ hi))
    refine ⟨result, ?_, hw.trans hshape.1, hh.trans hshape.2.1, hwfres, ?_⟩
    · show combineImagesLoop ops fs (inp :: rest) d = .ok result
      simp only [combineImagesLoop, hpic]
      exact hres
    · intro x' y' hin
      have hin1 : inB d1 x' y' := (inB_of_shape hshape.1 hshape.2.1 x' y').2 hin
      rw [List.foldl_cons, hAt x' y' hin1]
      have hstep : d1.At x' y' = contribStep ops fs x' y' (d.At x' y') inp := by
        rw [hd1, addColor_At ops d pic inp.colorValue x' y' hwf]
        unfold contribStep
        rw [hpic]
        by_cases hcond : (0 ≤ y' ∧ y' < (pic.h:ℤ)) ∧ (0 ≤ x' ∧ x' < (pic.w:ℤ))
        · rw [if_pos ⟨hcond.1, hcond.2, hin⟩]
          exact (if_pos hcond).symm
        · rw [if_neg (by tauto)]
          exact (if_neg hcond).symm
      rw [hstep]

/-- A freshly created canvas reads black everywhere. -/
theorem replicate_At (w h : ℤ) (x y : ℤ) :
    floatColorImage.At ⟨w, h, List.replicate (w * h).toNat blackFloat⟩ x y = blackFloat := by
  unfold floatColorImage.At
  split
  · rfl
  · rcases Nat.lt_or_ge (y * w + x).toNat (List.replicate (w * h).toNat blackFloat).length
      with hlt | hge
    · rw [List.getD_eq_getElem?_getD, List.getElem?_eq_getElem hlt]
      simp
    · rw [List.getD_eq_getElem?_getD, List.getElem?_eq_none (by simpa using hge)]
      rfl

theorem newFloatColorImage_wfc {w h : ℤ} {f : floatColorImage}
    (hf : newFloatColorImage w h = .ok f) :
    f.w = w ∧ f.h = h ∧ f.wfc ∧ ∀ x y, f.At x y = blackFloat := by
  unfold newFloatColorImage at hf
  split at hf
  · cases hf
  · cases hf
    refine ⟨rfl, rfl, ?_, fun x y => replicate_At w h x y⟩
    unfold floatColorImage.wfc
    simp

/-! ## Dimension resolution lemmas -/

/-- Width of the image a file decodes to (0 when the file fails; only used
under an all-inputs-decode hypothesis). -/
def decodedW (fs : String → fileResult) (inp : imageInput) : ℕ :=
  match fs inp.filename with
  | .ok pic => pic.w
  | _ => 0

/-- Height of the image a file decodes to. -/
def decodedH (fs : String → fileResult) (inp : imageInput) : ℕ :=
  match fs inp.filename with
  | .ok pic => pic.h
  | _ => 0

theorem getMaxDimensionsLoop_ok (fs : String → fileResult) :
    ∀ (inputs : List imageInput) (a b : ℕ),
    (∀ inp ∈ inputs, ∃ pic, fs inp.filename = fileResult.ok pic) →
    getMaxDimensionsLoop fs inputs a b =
      .ok (inputs.foldl (fun m i => max m (decodedW fs i)) a,
           inputs.foldl (fun m i => max m (decodedH fs i)) b) := by
  intro inputs
  induction inputs with
  | nil => intro a b _; rfl
  | cons inp rest ih =>
    intro a b hok
    obtain ⟨pic, hpic⟩ := hok inp (List.mem_cons_self _ _)
    have hW : (if a < pic.w then pic.w else a) = max a (decodedW fs inp) := by
      unfold decodedW
      rw [hpic]
      rcases Nat.lt_or_ge a pic.w with h | h
      · rw [if_pos h, Nat.max_eq_right (le_of_lt h)]
      · rw [if_neg (not_lt.2 h), Nat.max_eq_left h]
    have hH : (if b < pic.h then pic.h else b) = max b (decodedH fs inp) := by
      unfold decodedH
      rw [hpic]
      rcases Nat.lt_or_ge b pic.h with h | h
      · rw [if_pos h, Nat.max_eq_right (le_of_lt h)]
      · rw [if_neg (not_lt.2 h), Nat.max_eq_left h]
    simp only [getMaxDimensionsLoop, hpic, List.foldl_cons]
    rw [hW, hH]
    exact ih _ _ (fun i hi => hok i (List.mem_cons_of_mem _ hi))

theorem foldl_max_init {α : Type _} (f : α → ℕ) :
    ∀ (l : List α) (a b : ℕ),
    l.foldl (fun m i => max m (f i)) (max a b) =
      max (l.foldl (fun m i => max m (f i)) a) b := by
  intro l
  induction l with
  | nil => intro a b; rfl
  | cons i l ih =>
    intro a b
    simp only [List.foldl_cons]
    rw [show max (max a b) (f i) = max (max a (f i)) b from Max.right_comm a b (f i)]
    exact ih (max a (f i)) b

/-- Folding `max` over a reversed list gives the same maximum. -/
theorem foldl_max_reverse {α : Type _} (f : α → ℕ) :
    ∀ (l : List α) (a : ℕ),
    l.reverse.foldl (fun m i => max m (f i)) a = l.foldl (fun m i => max m (f i)) a := by
  intro l
  induction l with
  | nil => intro a; rfl
  | cons i l ih =>
    intro a
    rw [List.reverse_cons, List.foldl_append, ih]
    simp only [List.foldl_cons, List.foldl_nil]
    rw [← foldl_max_init f l a (f i)]

/-- Maximum input width (the accumulation tool's resolved canvas width). -/
def maxW (fs : String → fileResult) (inputs : List imageInput) : ℕ :=
  inputs.foldl (fun m i => max m (decodedW fs i)) 0

/-- Maximum input height. -/
def maxH (fs : String → fileResult) (inputs : List imageInput) : ℕ :=
  inputs.foldl (fun m i => max m (decodedH fs i)) 0

/-- When every input decodes and the resolved dimensions are positive,
`combineImages` succeeds, the canvas has the resolved dimensions, every
in-bounds pixel is the in-order fold of the per-input contributions
starting from black, and out-of-bounds reads give black. -/
theorem combineImages_ok (ops : FOps) (fs : String → fileResult)
    (inputs : List imageInput)
    (hok : ∀ inp ∈ inputs, ∃ pic, fs inp.filename = fileResult.ok pic)
    (hW : 0 < maxW fs inputs) (hH : 0 < maxH fs inputs) :
    ∃ result, combineImages ops fs inputs = .ok result ∧
      result.w = (maxW fs inputs : ℤ) ∧ result.h = (maxH fs inputs : ℤ) ∧
      (∀ x y : ℤ, 0 ≤ x → 0 ≤ y → x < (maxW fs inputs : ℤ) → y < (maxH fs inputs : ℤ) →
        result.At x y = inputs.foldl (contribStep ops fs x y) blackFloat) ∧
      (∀ x y : ℤ, ¬(0 ≤ x ∧ 0 ≤ y ∧ x < (maxW fs inputs : ℤ) ∧ y < (maxH fs inputs : ℤ)) →
        result.At x y = blackFloat) := by
  have hdim : getMaxDimensions fs inputs = .ok (maxW fs inputs, maxH fs inputs) :=
    getMaxDimensionsLoop_ok fs inputs 0 0 hok
  have hnew : newFloatColorImage (maxW fs inputs : ℤ) (maxH fs inputs : ℤ) =
      .ok ⟨(maxW fs inputs : ℤ), (maxH fs inputs : ℤ),
        List.replicate ((maxW fs inputs : ℤ) * (maxH fs inputs : ℤ)).toNat blackFloat⟩ := by
    unfold newFloatColorImage
    rw [if_neg (by push_neg; constructor <;> [exact_mod_cast hW; exact_mod_cast hH])]
  set canvas : floatColorImage := ⟨(maxW fs inputs : ℤ), (maxH fs inputs : ℤ),
    List.replicate ((maxW fs inputs : ℤ) * (maxH fs inputs : ℤ)).toNat blackFloat⟩
    with hcanvas
  have hcwf : canvas.wfc := by
    unfold floatColorImage.wfc
    simp
  obtain ⟨result, hres, hw, hh, hwfres, hAt⟩ :=
    combineImagesLoop_At ops fs inputs canvas hcwf hok
  refine ⟨result, ?_, hw, hh, ?_, ?_⟩
  · unfold combineImages
    simp only [hdim, hnew]
    exact hres
  · intro x y h0x h0y hxw hyh
    have hin : inB canvas x y := ⟨h0x, h0y, hxw, hyh⟩
    rw [hAt x y hin]
    rw [show canvas.At x y = blackFloat from replicate_At _ _ x y]
  · intro x y hoob
    exact At_oob result (by
      rw [show inB result x y ↔ inB canvas x y from inB_of_shape hw hh x y]
      exact hoob)

/-- When every input decodes but the resolved dimensions degenerate (only
possible when every input is empty in one axis), `combineImages` fails
with the canvas-creation error. -/
theorem combineImages_err (ops : FOps) (fs : String → fileResult)
    (inputs : List imageInput)
    (hok : ∀ inp ∈ inputs, ∃ pic, fs inp.filename = fileResult.ok pic)
    (hzero : maxW fs inputs = 0 ∨ maxH fs inputs = 0) :
    combineImages ops fs inputs =
      .error "Failed creating new image: Image bounds must be positive" := by
  have hdim : getMaxDimensions fs inputs = .ok (maxW fs inputs, maxH fs inputs) :=
    getMaxDimensionsLoop_ok fs inputs 0 0 hok
  have hnew : newFloatColorImage (maxW fs inputs : ℤ) (maxH fs inputs : ℤ) =
      .error "Image bounds must be positive" := by
    unfold newFloatColorImage
    rw [if_pos (by
      rcases hzero with h | h
      · left; rw [h]; norm_num
      · right; rw [h]; norm_num)]
  unfold combineImages
  simp only [hdim, hnew]
  rfl

/-! ## Exact-arithmetic accumulation is a per-pixel sum -/

/-- The exact-arithmetic contribution of one input to pixel `(x', y')`. -/
def contribVal (fs : String → fileResult) (x' y' : ℤ) (inp : imageInput) : floatColor :=
  match fs inp.filename with
  | .ok pic =>
    if (0 ≤ y' ∧ y' < (pic.h:ℤ)) ∧ (0 ≤ x' ∧ x' < (pic.w:ℤ)) then
      inp.colorValue.Scale exactOps (convertToBrightness exactOps (pic.px x'.toNat y'.toNat))
    else ⟨0, 0, 0⟩
  | _ => ⟨0, 0, 0⟩

theorem contribStep_exact (fs : String → fileResult) (x' y' : ℤ)
    (v : floatColor) (inp : imageInput) :
    contribStep exactOps fs x' y' v inp =
      ⟨v.r + (contribVal fs x' y' inp).r,
       v.g + (contribVal fs x' y' inp).g,
       v.b + (contribVal fs x' y' inp).b⟩ := by
  unfold contribStep contribVal
  cases fs inp.filename with
  | openFail c => simp
  | decodeFail c => simp
  | ok pic =>
    dsimp only
    by_cases hcond : (0 ≤ y' ∧ y' < (pic.h:ℤ)) ∧ (0 ≤ x' ∧ x' < (pic.w:ℤ))
    · rw [if_pos hcond, if_pos hcond]
      rfl
    · rw [if_neg hcond, if_neg hcond]
      simp

theorem foldl_contrib_exact (fs : String → fileResult) (x' y' : ℤ) :
    ∀ (l : List imageInput) (v : floatColor),
    l.foldl (contribStep exactOps fs x' y') v =
      ⟨v.r + (l.map (fun i => (contribVal fs x' y' i).r)).sum,
       v.g + (l.map (fun i => (contribVal fs x' y' i).g)).sum,
       v.b + (l.map (fun i => (contribVal fs x' y' i).b)).sum⟩ := by
  intro l
  induction l with
  | nil => intro v; simp
  | cons i l ih =>
    intro v
    rw [List.foldl_cons, contribStep_exact, ih]
    simp only [List.map_cons, List.sum_cons]
    congr 1 <;> ring

/-- Under exact arithmetic, the fold of contributions is invariant under
reversing the inputs: it is a sum. -/
theorem foldl_contrib_exact_reverse (fs : String → fileResult) (x' y' : ℤ)
    (l : List imageInput) (v : floatColor) :
    l.reverse.foldl (contribStep exactOps fs x' y') v =
      l.foldl (contribStep exactOps fs x' y') v := by
  rw [foldl_contrib_exact, foldl_contrib_exact]
  rw [List.map_reverse, List.map_reverse, List.map_reverse,
    List.sum_reverse, List.sum_reverse, List.sum_reverse]

theorem maxW_reverse (fs : String → fileResult) (inputs : List imageInput) :
    maxW fs inputs.reverse = maxW fs inputs :=
  foldl_max_reverse (decodedW fs) inputs 0

theorem maxH_reverse (fs : String → fileResult) (inputs : List imageInput) :
    maxH fs inputs.reverse = maxH fs inputs :=
  foldl_max_reverse (decodedH fs) inputs 0

/-- C1 (amended): order independence of the accumulation pipeline holds
under exact (infinitely precise) color arithmetic.  For every file system
and every input list whose files all decode, running `combineImages` with
exact rational scalar operations on the reversed input list produces a
pixel-identical canvas to running it in argument order (both reads agree
at every integer coordinate); when the resolved canvas is degenerate, both
orders fail with the same canvas-creation error.  (With the program's
float32 operations the canvases can differ by final rounding ulps — see
the counterexample.) -/
theorem claim_C1_amended (fs : String → fileResult) (inputs : List imageInput)
    (hok : ∀ inp ∈ inputs, ∃ pic, fs inp.filename = fileResult.ok pic) :
    (∃ c c', combineImages exactOps fs inputs = .ok c ∧
       combineImages exactOps fs inputs.reverse = .ok c' ∧
       ∀ x y : ℤ, c'.At x y = c.At x y) ∨
    (combineImages exactOps fs inputs =
        .error "Failed creating new image: Image bounds must be positive" ∧
     combineImages exactOps fs inputs.reverse =
        .error "Failed creating new image: Image bounds must be positive") := by
  have hokrev : ∀ inp ∈ inputs.reverse, ∃ pic, fs inp.filename = fileResult.ok pic :=
    fun inp hi => hok inp (List.mem_reverse.1 hi)
  by_cases hz : maxW fs inputs = 0 ∨ maxH fs inputs = 0
  · right
    refine ⟨combineImages_err exactOps fs inputs hok hz, ?_⟩
    apply combineImages_err exactOps fs inputs.reverse hokrev
    rw [maxW_reverse, maxH_reverse]
    exact hz
  · push_neg at hz
    left
    obtain ⟨c, hc, hcw, hch, hcAt, hcOob⟩ :=
      combineImages_ok exactOps fs inputs hok
        (Nat.pos_of_ne_zero hz.1) (Nat.pos_of_ne_zero hz.2)
    obtain ⟨c', hc', hcw', hch', hcAt', hcOob'⟩ :=
      combineImages_ok exactOps fs inputs.reverse hokrev
        (by rw [maxW_reverse]; exact Nat.pos_of_ne_zero hz.1)
        (by rw [maxH_reverse]; exact Nat.pos_of_ne_zero hz.2)
    rw [maxW_reverse, maxH_reverse] at hcAt' hcOob'
    refine ⟨c, c', hc, hc', ?_⟩
    intro x y
    by_cases hin : 0 ≤ x ∧ 0 ≤ y ∧ x < (maxW fs inputs : ℤ) ∧ y < (maxH fs inputs : ℤ)
    · rw [hcAt' x y hin.1 hin.2.1 hin.2.2.1 hin.2.2.2,
        hcAt x y hin.1 hin.2.1 hin.2.2.1 hin.2.2.2]
      exact foldl_contrib_exact_reverse fs x y inputs blackFloat
    · rw [hcOob' x y hin, hcOob x y hin]

/-! ## Concrete binary32 evaluations

The values arising in the order-independence counterexample, each computed
by exhibiting the binary exponent and the rounded significand. -/

theorem round32_eval_floor {q : ℚ} {e f : ℤ} (hq : 0 < q)
    (h1 : (2:ℚ) ^ e ≤ q) (h2 : q < (2:ℚ) ^ (e + 1))
    (hf : (f:ℚ) ≤ q * 2 ^ (23 - e)) (hf2 : q * 2 ^ (23 - e) - f < 1/2) :
    round32 q = (f : ℚ) * 2 ^ (e - 23) :=
  round32_eval hq h1 h2 (rnE_eq_floor hf hf2)

theorem round32_eval_ceil {q : ℚ} {e f : ℤ} (hq : 0 < q)
    (h1 : (2:ℚ) ^ e ≤ q) (h2 : q < (2:ℚ) ^ (e + 1))
    (hf : (f:ℚ) ≤ q * 2 ^ (23 - e)) (hf1 : q * 2 ^ (23 - e) < f + 1)
    (hf2 : 1/2 < q * 2 ^ (23 - e) - f) :
    round32 q = ((f + 1 : ℤ) : ℚ) * 2 ^ (e - 23) :=
  round32_eval hq h1 h2 (rnE_eq_ceil hf hf1 hf2)

theorem r32_196605 : round32 ((196605:ℕ):ℚ) = 196605 := by
  have h := round32_natCast (n := 196605) (by norm_num)
  rw [h]
  norm_num

theorem r32_65535 : round32 ((65535:ℕ):ℚ) = 65535 := by
  have h := round32_natCast (n := 65535) (by norm_num)
  rw [h]
  norm_num

theorem r32_500 : round32 ((500:ℕ):ℚ) = 500 := by
  have h := round32_natCast (n := 500) (by norm_num)
  rw [h]
  norm_num

theorem r32_nat_one : round32 ((1:ℕ):ℚ) = 1 := by
  have h := round32_natCast (n := 1) (by norm_num)
  rw [h]
  norm_num

/-- `float32(1)/float32(196605)`: the brightness of a pixel with channel
sum 1. -/
theorem r32_inv196605 : round32 ((1:ℚ)/196605) = 11184981/2199023255552 := by
  rw [round32_eval_floor (e := -18) (f := 11184981)
    (by norm_num) (by norm_num) (by norm_num) (by norm_num) (by norm_num)]
  norm_num

/-- `float32(500)/float32(65535)`: the red channel parsed from
`01f400000000`. -/
theorem r32_dimR : round32 ((500:ℚ)/65535) = 8192125/1073741824 := by
  rw [round32_eval_floor (e := -8) (f := 16384250)
    (by norm_num) (by norm_num) (by norm_num) (by norm_num) (by norm_num)]
  norm_num

/-- The float32 product of the dim color's red channel and the dim pixel's
brightness: the per-pass red contribution `t`. -/
theorem r32_t : round32 ((8192125/1073741824 : ℚ) * (11184981/2199023255552)) =
    1365375/35184372088832 := by
  rw [round32_eval_ceil (e := -25) (f := 10922999)
    (by norm_num) (by norm_num) (by norm_num) (by norm_num) (by norm_num) (by norm_num)]
  norm_num

/-- Adding `t` to an accumulated `1.0` rounds back to `1.0`: `t` is below
half an ulp of 1. -/
theorem r32_one_plus_t : round32 (1 + (1365375/35184372088832 : ℚ)) = 1 := by
  rw [round32_eval_floor (e := 0) (f := 8388608)
    (by norm_num) (by norm_num) (by norm_num) (by norm_num) (by norm_num)]
  norm_num

/-- `t` is itself a binary32 value. -/
theorem r32_t_self : round32 ((1365375:ℚ)/35184372088832) = 1365375/35184372088832 := by
  rw [round32_eval_floor (e := -25) (f := 10923000)
    (by norm_num) (by norm_num) (by norm_num) (by norm_num) (by norm_num)]
  norm_num

/-- `t + t` is exact (doubling). -/
theorem r32_two_t : round32 ((1365375/35184372088832 : ℚ) + 1365375/35184372088832) =
    1365375/17592186044416 := by
  rw [round32_eval_floor (e := -24) (f := 10923000)
    (by norm_num) (by norm_num) (by norm_num) (by norm_num) (by norm_num)]
  norm_num

/-- Adding `1.0` to an accumulated `2t` rounds up: the result is one ulp
above 1. -/
theorem r32_two_t_plus_one : round32 ((1365375/17592186044416 : ℚ) + 1) =
    8388609/8388608 := by
  rw [round32_eval_ceil (e := 0) (f := 8388608)
    (by norm_num) (by norm_num) (by norm_num) (by norm_num) (by norm_num) (by norm_num)]
  norm_num

/-! ## The order-independence counterexample

Three 1x1 inputs: a white image with the color `ffffffffffff`
(contributing exactly `1.0` to the red channel), and two copies of an
almost-black image (canonical pixel `(1,0,0)`) with the color
`01f400000000`, each contributing
`t = round32(round32(500/65535) * round32(1/196605)) = 1365375/2^45` to
the red channel.  `t` lies strictly between half an ulp and one ulp of
`1.0`, so `1 + t + t` evaluates to `1.0` while `t + t + 1` evaluates to
`1 + 2^-23`: folding the inputs in the two orders produces canvases that
differ in the red channel of their single pixel. -/

def cexColorWhite : floatColor := ⟨1, 1, 1⟩

/-- The float32 value of `round32(500/65535)`, the red channel the parser
produces for `01f400000000`. -/
def cexColorDim : floatColor := ⟨8192125/1073741824, 0, 0⟩

def cexImgWhite : decodedImage := ⟨1, 1, fun _ _ => ⟨0xffff, 0xffff, 0xffff, 0xffff⟩⟩

def cexImgDim : decodedImage := ⟨1, 1, fun _ _ => ⟨1, 0, 0, 0xffff⟩⟩

def cexFs : String → fileResult := fun name =>
  if name = "white" then .ok cexImgWhite else .ok cexImgDim

def cexInputs : List imageInput :=
  [⟨"white", cexColorWhite⟩, ⟨"dim", cexColorDim⟩, ⟨"dim2", cexColorDim⟩]

theorem cexFs_white : cexFs "white" = .ok cexImgWhite := by
  unfold cexFs
  rw [if_pos rfl]

theorem cexFs_dim : cexFs "dim" = .ok cexImgDim := by
  unfold cexFs
  rw [if_neg (by decide)]

theorem cexFs_dim2 : cexFs "dim2" = .ok cexImgDim := by
  unfold cexFs
  rw [if_neg (by decide)]

theorem cex_bright_white :
    convertToBrightness f32Ops (cexImgWhite.px 0 0) = 1 := by
  show round32 (round32 (((0xffff + 0xffff + 0xffff) % 2^32 : ℕ) : ℚ) / 196605) = 1
  have h1 : (((0xffff + 0xffff + 0xffff) % 2^32 : ℕ) : ℚ) = ((196605:ℕ):ℚ) := by norm_num
  rw [h1, r32_196605]
  have h2 : (196605:ℚ)/196605 = 1 := by norm_num
  rw [h2, round32_one]

theorem cex_bright_dim :
    convertToBrightness f32Ops (cexImgDim.px 0 0) = 11184981/2199023255552 := by
  show round32 (round32 (((1 + 0 + 0) % 2^32 : ℕ) : ℚ) / 196605) = 11184981/2199023255552
  have h1 : (((1 + 0 + 0) % 2^32 : ℕ) : ℚ) = ((1:ℕ):ℚ) := by norm_num
  rw [h1, r32_nat_one]
  exact r32_inv196605

theorem cex_scale_white :
    cexColorWhite.Scale f32Ops (convertToBrightness f32Ops (cexImgWhite.px 0 0)) =
      ⟨1, 1, 1⟩ := by
  rw [cex_bright_white]
  show (⟨round32 (1 * 1), round32 (1 * 1), round32 (1 * 1)⟩ : floatColor) = ⟨1, 1, 1⟩
  rw [show (1:ℚ) * 1 = 1 by norm_num, round32_one]

theorem cex_scale_dim :
    cexColorDim.Scale f32Ops (convertToBrightness f32Ops (cexImgDim.px 0 0)) =
      ⟨1365375/35184372088832, 0, 0⟩ := by
  rw [cex_bright_dim]
  show (⟨round32 (8192125/1073741824 * (11184981/2199023255552)),
         round32 (0 * (11184981/2199023255552)),
         round32 (0 * (11184981/2199023255552))⟩ : floatColor) =
    ⟨1365375/35184372088832, 0, 0⟩
  rw [r32_t, show (0:ℚ) * (11184981/2199023255552) = 0 by norm_num, round32_zero]

/-! ## Concrete color-parser evaluations -/

theorem r32_255 : round32 ((255:ℕ):ℚ) = 255 := by
  have h := round32_natCast (n := 255) (by norm_num)
  rw [h]
  norm_num

theorem r32_nat_zero : round32 ((0:ℕ):ℚ) = 0 := by
  rw [show ((0:ℕ):ℚ) = 0 from by norm_num, round32_zero]

/-- One 16-bit channel value normalized by `65535.0` in float32. -/
theorem chan48_ffff : f32Ops.div (f32Ops.ofNat 65535) 65535 = 1 := by
  show round32 (round32 ((65535:ℕ):ℚ) / 65535) = 1
  rw [r32_65535, show (65535:ℚ)/65535 = 1 from by norm_num, round32_one]

theorem chan48_zero : f32Ops.div (f32Ops.ofNat 0) 65535 = 0 := by
  show round32 (round32 ((0:ℕ):ℚ) / 65535) = 0
  rw [r32_nat_zero, show (0:ℚ)/65535 = 0 from by norm_num, round32_zero]

theorem chan48_500 : f32Ops.div (f32Ops.ofNat 500) 65535 = 8192125/1073741824 := by
  show round32 (round32 ((500:ℕ):ℚ) / 65535) = 8192125/1073741824
  rw [r32_500]
  exact r32_dimR

theorem chan24_ff : f32Ops.div (f32Ops.ofNat 255) 255 = 1 := by
  show round32 (round32 ((255:ℕ):ℚ) / 255) = 1
  rw [r32_255, show (255:ℚ)/255 = 1 from by norm_num, round32_one]

theorem chan24_zero : f32Ops.div (f32Ops.ofNat 0) 255 = 0 := by
  show round32 (round32 ((0:ℕ):ℚ) / 255) = 0
  rw [r32_nat_zero, show (0:ℚ)/255 = 0 from by norm_num, round32_zero]

/-- `parse("ffffffffffff")`: 48-bit white, every channel exactly `1.0`. -/
theorem parse_white48 : parseFloatColor "ffffffffffff" = .ok ⟨1, 1, 1⟩ := by
  have hb : (parseNamedColor "ffffffffffff").2 = false := by decide
  simp only [parseFloatColor, hb, Bool.false_eq_true, if_false]
  rw [show startsWithHash "ffffffffffff" = false from by decide]
  simp only [Bool.false_eq_true, if_false]
  rw [if_neg (by decide), if_pos (by decide)]
  unfold parse48BitColor
  rw [show parseUintHex "ffffffffffff" 64 = some 281474976710655 from by decide]
  dsimp only
  rw [show (281474976710655 / 2^32 % 2^16 : ℕ) = 65535 from by norm_num,
    show (281474976710655 / 2^16 % 2^16 : ℕ) = 65535 from by norm_num,
    show (281474976710655 % 2^16 : ℕ) = 65535 from by norm_num,
    chan48_ffff]

/-- `parse("01f400000000")`: 48-bit color with red channel `500/65535`,
rounded to float32. -/
theorem parse_dim48 : parseFloatColor "01f400000000" = .ok ⟨8192125/1073741824, 0, 0⟩ := by
  have hb : (parseNamedColor "01f400000000").2 = false := by decide
  simp only [parseFloatColor, hb, Bool.false_eq_true, if_false]
  rw [show startsWithHash "01f400000000" = false from by decide]
  simp only [Bool.false_eq_true, if_false]
  rw [if_neg (by decide), if_pos (by decide)]
  unfold parse48BitColor
  rw [show parseUintHex "01f400000000" 64 = some 2147483648000 from by decide]
  dsimp only
  rw [show (2147483648000 / 2^32 % 2^16 : ℕ) = 500 from by norm_num,
    show (2147483648000 / 2^16 % 2^16 : ℕ) = 0 from by norm_num,
    show (2147483648000 % 2^16 : ℕ) = 0 from by norm_num,
    chan48_500, chan48_zero]

theorem cex_step_white (v : floatColor) :
    contribStep f32Ops cexFs 0 0 v ⟨"white", cexColorWhite⟩ =
      ⟨round32 (v.r + 1), round32 (v.g + 1), round32 (v.b + 1)⟩ := by
  unfold contribStep
  rw [show (imageInput.mk "white" cexColorWhite).filename = "white" from rfl, cexFs_white]
  dsimp only
  rw [if_pos (by unfold cexImgWhite; constructor <;> constructor <;> norm_num)]
  rw [show ((0:ℤ)).toNat = 0 from rfl]
  rw [cex_scale_white]
  rfl

theorem cex_step_dim (name : String) (hfs : cexFs name = .ok cexImgDim) (v : floatColor) :
    contribStep f32Ops cexFs 0 0 v ⟨name, cexColorDim⟩ =
      ⟨round32 (v.r + 1365375/35184372088832), round32 (v.g + 0), round32 (v.b + 0)⟩ := by
  unfold contribStep
  rw [show (imageInput.mk name cexColorDim).filename = name from rfl, hfs]
  dsimp only
  rw [if_pos (by unfold cexImgDim; constructor <;> constructor <;> norm_num)]
  rw [show ((0:ℤ)).toNat = 0 from rfl]
  rw [cex_scale_dim]
  rfl

theorem cex_fold_forward :
    cexInputs.foldl (contribStep f32Ops cexFs 0 0) blackFloat = ⟨1, 1, 1⟩ := by
  unfold cexInputs
  rw [List.foldl_cons, cex_step_white blackFloat]
  rw [show (⟨round32 (blackFloat.r + 1), round32 (blackFloat.g + 1),
      round32 (blackFloat.b + 1)⟩ : floatColor) = ⟨1, 1, 1⟩ from by
    show (⟨round32 ((0:ℚ) + 1), round32 ((0:ℚ) + 1), round32 ((0:ℚ) + 1)⟩ : floatColor) = _
    rw [show (0:ℚ) + 1 = 1 from by norm_num, round32_one]]
  rw [List.foldl_cons, cex_step_dim "dim" cexFs_dim ⟨1, 1, 1⟩]
  rw [show (⟨round32 ((1:ℚ) + 1365375/35184372088832), round32 ((1:ℚ) + 0),
      round32 ((1:ℚ) + 0)⟩ : floatColor) = ⟨1, 1, 1⟩ from by
    rw [r32_one_plus_t, show (1:ℚ) + 0 = 1 from by norm_num, round32_one]]
  rw [List.foldl_cons, cex_step_dim "dim2" cexFs_dim2 ⟨1, 1, 1⟩]
  rw [show (⟨round32 ((1:ℚ) + 1365375/35184372088832), round32 ((1:ℚ) + 0),
      round32 ((1:ℚ) + 0)⟩ : floatColor) = ⟨1, 1, 1⟩ from by
    rw [r32_one_plus_t, show (1:ℚ) + 0 = 1 from by norm_num, round32_one]]
  rfl

theorem cex_fold_reverse :
    cexInputs.reverse.foldl (contribStep f32Ops cexFs 0 0) blackFloat =
      ⟨8388609/8388608, 1, 1⟩ := by
  rw [show cexInputs.reverse =
    [⟨"dim2", cexColorDim⟩, ⟨"dim", cexColorDim⟩, ⟨"white", cexColorWhite⟩] from rfl]
  rw [List.foldl_cons, cex_step_dim "dim2" cexFs_dim2 blackFloat]
  rw [show (⟨round32 (blackFloat.r + 1365375/35184372088832), round32 (blackFloat.g + 0),
      round32 (blackFloat.b + 0)⟩ : floatColor) =
      ⟨1365375/35184372088832, 0, 0⟩ from by
    show (⟨round32 ((0:ℚ) + 1365375/35184372088832), round32 ((0:ℚ) + 0),
        round32 ((0:ℚ) + 0)⟩ : floatColor) = _
    rw [show (0:ℚ) + 1365375/35184372088832 = 1365375/35184372088832 from by norm_num,
      r32_t_self, show (0:ℚ) + 0 = 0 from by norm_num, round32_zero]]
  rw [List.foldl_cons, cex_step_dim "dim" cexFs_dim ⟨1365375/35184372088832, 0, 0⟩]
  rw [show (⟨round32 ((1365375/35184372088832:ℚ) + 1365375/35184372088832),
      round32 ((0:ℚ) + 0), round32 ((0:ℚ) + 0)⟩ : floatColor) =
      ⟨1365375/17592186044416, 0, 0⟩ from by
    rw [r32_two_t, show (0:ℚ) + 0 = 0 from by norm_num, round32_zero]]
  rw [List.foldl_cons, cex_step_white ⟨1365375/17592186044416, 0, 0⟩]
  rw [show (⟨round32 ((1365375/17592186044416:ℚ) + 1), round32 ((0:ℚ) + 1),
      round32 ((0:ℚ) + 1)⟩ : floatColor) = ⟨8388609/8388608, 1, 1⟩ from by
    rw [r32_two_t_plus_one, show (0:ℚ) + 1 = 1 from by norm_num, round32_one]]
  rfl

theorem cex_hok : ∀ inp ∈ cexInputs, ∃ pic, cexFs inp.filename = fileResult.ok pic := by
  intro inp hi
  simp only [cexInputs, List.mem_cons, List.not_mem_nil, or_false] at hi
  rcases hi with rfl | rfl | rfl
  · exact ⟨cexImgWhite, cexFs_white⟩
  · exact ⟨cexImgDim, cexFs_dim⟩
  · exact ⟨cexImgDim, cexFs_dim2⟩

theorem cex_maxW : maxW cexFs cexInputs = 1 := by
  unfold maxW cexInputs decodedW
  simp only [List.foldl_cons, List.foldl_nil]
  rw [cexFs_white, cexFs_dim, cexFs_dim2]
  rfl

theorem cex_maxH : maxH cexFs cexInputs = 1 := by
  unfold maxH cexInputs decodedH
  simp only [List.foldl_cons, List.foldl_nil]
  rw [cexFs_white, cexFs_dim, cexFs_dim2]
  rfl

/-- C1 (counterexample): the accumulation pipeline, with the program's
float32 arithmetic, is **not** order independent.  Three 1x1 inputs — all
decoding successfully, with colors produced by `parseFloatColor` — give a
canvas whose single pixel is `(1, 1, 1)` when folded in argument order but
`(1 + 2^-23, 1, 1)` when folded in reversed order `[C, B, A]`: float32
addition is commutative but not associative, and the two small
contributions are each below half an ulp of `1.0` while their sum is
above it. -/
theorem claim_C1_counterexample :
    parseFloatColor "ffffffffffff" = .ok cexColorWhite ∧
    parseFloatColor "01f400000000" = .ok cexColorDim ∧
    (combineImages f32Ops cexFs cexInputs).map (fun c => c.At 0 0) =
      .ok ⟨1, 1, 1⟩ ∧
    (combineImages f32Ops cexFs cexInputs.reverse).map (fun c => c.At 0 0) =
      .ok ⟨8388609/8388608, 1, 1⟩ ∧
    floatColor.mk 1 1 1 ≠ ⟨8388609/8388608, 1, 1⟩ := by
  refine ⟨parse_white48, parse_dim48, ?_, ?_, ?_⟩
  · obtain ⟨result, hres, hw, hh, hAt, _⟩ :=
      combineImages_ok f32Ops cexFs cexInputs cex_hok
        (by rw [cex_maxW]; norm_num) (by rw [cex_maxH]; norm_num)
    rw [hres]
    show Except.ok (result.At 0 0) = _
    rw [hAt 0 0 le_rfl le_rfl (by rw [cex_maxW]; norm_num) (by rw [cex_maxH]; norm_num)]
    rw [cex_fold_forward]
  · have hokrev : ∀ inp ∈ cexInputs.reverse, ∃ pic, cexFs inp.filename = fileResult.ok pic :=
      fun inp hi => cex_hok inp (List.mem_reverse.1 hi)
    obtain ⟨result, hres, hw, hh, hAt, _⟩ :=
      combineImages_ok f32Ops cexFs cexInputs.reverse hokrev
        (by rw [maxW_reverse, cex_maxW]; norm_num) (by rw [maxH_reverse, cex_maxH]; norm_num)
    rw [hres]
    show Except.ok (result.At 0 0) = _
    rw [hAt 0 0 le_rfl le_rfl (by rw [maxW_reverse, cex_maxW]; norm_num)
      (by rw [maxH_reverse, cex_maxH]; norm_num)]
    rw [cex_fold_reverse]
  · intro h
    have hr := congrArg floatColor.r h
    norm_num at hr

/-- Witness for the amended C1: the theorem applied to the concrete
counterexample file system and inputs, all of which decode. -/
theorem claim_C1_amended_witness :
    (∃ c c', combineImages exactOps cexFs cexInputs = .ok c ∧
       combineImages exactOps cexFs cexInputs.reverse = .ok c' ∧
       ∀ x y : ℤ, c'.At x y = c.At x y) ∨
    (combineImages exactOps cexFs cexInputs =
        .error "Failed creating new image: Image bounds must be positive" ∧
     combineImages exactOps cexFs cexInputs.reverse =
        .error "Failed creating new image: Image bounds must be positive") :=
  claim_C1_amended cexFs cexInputs cex_hok

/-! ## Clamped rendering (C2) -/

theorem r32_two : round32 ((2:ℕ):ℚ) = 2 := by
  have h := round32_natCast (n := 2) (by norm_num)
  rw [h]
  norm_num

/-- Truncating the rounded product of a channel below `65535` never
exceeds `0xffff`: the rounding error is below one part in `2^24`. -/
theorem u32_round32_le {q : ℚ} (h0 : 0 ≤ q) (h1 : q < 65535) :
    u32OfFloat (round32 q) ≤ 0xffff := by
  rcases eq_or_lt_of_le h0 with h | hpos
  · rw [← h, round32_zero]
    unfold u32OfFloat
    norm_num
  · have herr := round32_err hpos
    have hlog : (2:ℚ) ^ Int.log 2 q ≤ q := Int.zpow_log_le_self (by norm_num) hpos
    have hb : round32 q ≤ q + 2 ^ (Int.log 2 q - 24) := by
      have := (abs_le.1 herr).2
      linarith
    have hsmall : (2:ℚ) ^ (Int.log 2 q - 24) ≤ q * 2 ^ (-24:ℤ) := by
      rw [show Int.log 2 q - 24 = Int.log 2 q + (-24) by ring,
        zpow_add₀ (by norm_num : (2:ℚ) ≠ 0)]
      exact mul_le_mul_of_nonneg_right hlog (le_of_lt (zpow_pos (by norm_num) _))
    have hlt : round32 q < 65536 := by
      have h2 : q * 2 ^ (-24:ℤ) ≤ 65535 * 2 ^ (-24:ℤ) :=
        mul_le_mul_of_nonneg_right (le_of_lt h1) (le_of_lt (zpow_pos (by norm_num) _))
      have h3 : (65535:ℚ) + 65535 * 2 ^ (-24:ℤ) < 65536 := by norm_num
      linarith
    unfold u32OfFloat
    have hfloor : ⌊round32 q⌋ < 65536 := by
      rcases lt_or_ge (⌊round32 q⌋) 65536 with h | h
      · exact h
      · exfalso
        have : (65536:ℚ) ≤ round32 q :=
          le_trans (by exact_mod_cast h) (Int.floor_le _)
        linarith
    have hnn : 0 ≤ ⌊round32 q⌋ := Int.floor_nonneg.2 (round32_nonneg h0)
    omega

/-- C2: clamped rendering.  Every channel of `floatColor.RGBA` whose
accumulated value is at least `1.0` renders as the maximum `0xffff`; a
channel below `1.0` renders as `uint32(channel * float32(0xffff))`; a
nonnegative channel never overflows or wraps past `0xffff`.  Intermediate
accumulation does not clamp: adding two full-brightness red contributions
holds the out-of-range value `2.0`, and rendering that pixel yields fully
saturated red. -/
theorem claim_C2_clamped_rendering :
    (∀ c : floatColor,
      (1 ≤ c.r → c.RGBA.r = 0xffff) ∧
      (1 ≤ c.g → c.RGBA.g = 0xffff) ∧
      (1 ≤ c.b → c.RGBA.b = 0xffff) ∧
      (¬ 1 ≤ c.r → c.RGBA.r = u32OfFloat (round32 (c.r * 0xffff))) ∧
      (0 ≤ c.r → c.RGBA.r ≤ 0xffff) ∧
      (0 ≤ c.g → c.RGBA.g ≤ 0xffff) ∧
      (0 ≤ c.b → c.RGBA.b ≤ 0xffff)) ∧
    (floatColor.mk 1 0 0).Add f32Ops ⟨1, 0, 0⟩ = ⟨2, 0, 0⟩ ∧
    (1:ℚ) < ((floatColor.mk 1 0 0).Add f32Ops ⟨1, 0, 0⟩).r ∧
    ((floatColor.mk 1 0 0).Add f32Ops ⟨1, 0, 0⟩).RGBA = ⟨0xffff, 0, 0, 0xffff⟩ := by
  have hbound : ∀ x : ℚ, 0 ≤ x →
      (if 1 ≤ x then 0xffff else u32OfFloat (round32 (x * 0xffff))) ≤ 0xffff := by
    intro x hx
    by_cases h1 : 1 ≤ x
    · rw [if_pos h1]
    · rw [if_neg h1]
      push_neg at h1
      apply u32_round32_le (mul_nonneg hx (by norm_num))
      calc x * 0xffff < 1 * 0xffff := by
            apply mul_lt_mul_of_pos_right h1 (by norm_num)
        _ = 65535 := by norm_num
  have hAdd : (floatColor.mk 1 0 0).Add f32Ops ⟨1, 0, 0⟩ = ⟨2, 0, 0⟩ := by
    show (⟨round32 ((1:ℚ) + 1), round32 ((0:ℚ) + 0), round32 ((0:ℚ) + 0)⟩ : floatColor)
      = ⟨2, 0, 0⟩
    rw [show (1:ℚ) + 1 = ((2:ℕ):ℚ) from by norm_num, r32_two,
      show (0:ℚ) + 0 = 0 from by norm_num, round32_zero]
  refine ⟨?_, hAdd, ?_, ?_⟩
  · intro c
    refine ⟨fun h => ?_, fun h => ?_, fun h => ?_, fun h => ?_,
      fun h => ?_, fun h => ?_, fun h => ?_⟩
    · show (if 1 ≤ c.r then (0xffff:ℕ) else _) = 0xffff
      rw [if_pos h]
    · show (if 1 ≤ c.g then (0xffff:ℕ) else _) = 0xffff
      rw [if_pos h]
    · show (if 1 ≤ c.b then (0xffff:ℕ) else _) = 0xffff
      rw [if_pos h]
    · show (if 1 ≤ c.r then (0xffff:ℕ) else u32OfFloat (round32 (c.r * 0xffff))) = _
      rw [if_neg h]
    · exact hbound c.r h
    · exact hbound c.g h
    · exact hbound c.b h
  · rw [hAdd]
    norm_num
  · rw [hAdd]
    show (⟨if (1:ℚ) ≤ 2 then (0xffff:ℕ) else _,
      if (1:ℚ) ≤ 0 then (0xffff:ℕ) else u32OfFloat (round32 ((0:ℚ) * 0xffff)),
      if (1:ℚ) ≤ 0 then (0xffff:ℕ) else u32OfFloat (round32 ((0:ℚ) * 0xffff)),
      (0xffff:ℕ)⟩ : rgba) = ⟨0xffff, 0, 0, 0xffff⟩
    rw [if_pos (by norm_num : (1:ℚ) ≤ 2), if_neg (by norm_num : ¬ (1:ℚ) ≤ 0)]
    rw [show (0:ℚ) * 0xffff = 0 from by norm_num, round32_zero]
    rfl

/-- Witness for C2 at concrete channels: a channel at `2.0` clamps, a
channel at `0` uses the unclamped formula and stays within range. -/
theorem claim_C2_witness :
    (floatColor.mk 2 1 0).RGBA.r = 0xffff ∧
    (floatColor.mk 0 0 0).RGBA.r =
      u32OfFloat (round32 ((floatColor.mk 0 0 0).r * 0xffff)) ∧
    (floatColor.mk 0 0 0).RGBA.r ≤ 0xffff :=
  ⟨(claim_C2_clamped_rendering.1 ⟨2, 1, 0⟩).1 one_le_two,
   (claim_C2_clamped_rendering.1 ⟨0, 0, 0⟩).2.2.2.1 (not_le.2 zero_lt_one),
   (claim_C2_clamped_rendering.1 ⟨0, 0, 0⟩).2.2.2.2.1 le_rfl⟩

/-! ## Brightness extraction (C3) -/

/-- C3: brightness extraction.  For canonical channels in `[0, 65535]`,
`convertToBrightness` computes `float32(r+g+b) / (3.0*65535.0)` — the
correctly rounded value of `(r+g+b)/(3*65535)`, since the integer sum is
exact in binary32 — and the result is a scalar in `[0, 1]`.  All three
channels are treated identically and the alpha component is ignored (the
function is a pure function of the color's RGB triple). -/
theorem claim_C3_brightness :
    (∀ c : rgba, c.r ≤ 65535 → c.g ≤ 65535 → c.b ≤ 65535 →
      convertToBrightness f32Ops c = round32 (((c.r + c.g + c.b : ℕ) : ℚ) / (3 * 65535)) ∧
      0 ≤ convertToBrightness f32Ops c ∧
      convertToBrightness f32Ops c ≤ 1) ∧
    (∀ x y z a a' : ℕ,
      convertToBrightness f32Ops ⟨x, y, z, a⟩ = convertToBrightness f32Ops ⟨y, x, z, a'⟩ ∧
      convertToBrightness f32Ops ⟨x, y, z, a⟩ = convertToBrightness f32Ops ⟨x, z, y, a'⟩) := by
  constructor
  · intro c hr hg hb
    have hsum : c.r + c.g + c.b ≤ 196605 := by omega
    have hmod : (c.r + c.g + c.b) % 2 ^ 32 = c.r + c.g + c.b :=
      Nat.mod_eq_of_lt (by omega)
    have hform : convertToBrightness f32Ops c =
        round32 (((c.r + c.g + c.b : ℕ) : ℚ) / (3 * 65535)) := by
      show round32 (round32 (((c.r + c.g + c.b) % 2^32 : ℕ) : ℚ) / 196605) = _
      rw [hmod, round32_natCast (le_trans hsum (by norm_num))]
      norm_num
    refine ⟨hform, ?_, ?_⟩
    · rw [hform]
      apply round32_nonneg
      positivity
    · rw [hform]
      apply round32_le_one (by positivity)
      rw [div_le_one (by norm_num)]
      calc ((c.r + c.g + c.b : ℕ) : ℚ) ≤ (196605 : ℕ) := by exact_mod_cast hsum
        _ ≤ 3 * 65535 := by norm_num
  · intro x y z a a'
    constructor
    · show round32 (round32 (((x + y + z) % 2^32 : ℕ) : ℚ) / 196605) =
        round32 (round32 (((y + x + z) % 2^32 : ℕ) : ℚ) / 196605)
      rw [show x + y + z = y + x + z from by omega]
    · show round32 (round32 (((x + y + z) % 2^32 : ℕ) : ℚ) / 196605) =
        round32 (round32 (((x + z + y) % 2^32 : ℕ) : ℚ) / 196605)
      rw [show x + y + z = x + z + y from by omega]

/-- Witness for C3 at the white pixel. -/
theorem claim_C3_witness :
    convertToBrightness f32Ops ⟨65535, 65535, 65535, 65535⟩ =
      round32 (((65535 + 65535 + 65535 : ℕ) : ℚ) / (3 * 65535)) ∧
    0 ≤ convertToBrightness f32Ops ⟨65535, 65535, 65535, 65535⟩ ∧
    convertToBrightness f32Ops ⟨65535, 65535, 65535, 65535⟩ ≤ 1 :=
  claim_C3_brightness.1 ⟨65535, 65535, 65535, 65535⟩ (by decide) (by decide) (by decide)

/-! ## Channel-tool canvas lemmas (C4) -/

namespace Channel

/-- In-bounds predicate for the RGBA64 output image. -/
def inBc (img : RGBA64Image) (x y : ℤ) : Prop :=
  0 ≤ x ∧ 0 ≤ y ∧ x < img.w ∧ y < img.h

instance (img : RGBA64Image) (x y : ℤ) : Decidable (inBc img x y) := by
  unfold inBc
  infer_instance

/-- Well-formedness of the RGBA64 pixel buffer. -/
def RGBA64Image.wfc (img : RGBA64Image) : Prop :=
  img.pixels.length = (img.w * img.h).toNat

theorem At64_oob (img : RGBA64Image) {x y : ℤ} (h : ¬ inBc img x y) :
    img.RGBA64At x y = ⟨0, 0, 0, 0⟩ := by
  unfold RGBA64Image.RGBA64At
  rw [if_pos (oob_iff.2 h)]

theorem At64_inb (img : RGBA64Image) {x y : ℤ} (h : inBc img x y) :
    img.RGBA64At x y = img.pixels.getD (y * img.w + x).toNat ⟨0, 0, 0, 0⟩ := by
  unfold RGBA64Image.RGBA64At
  rw [if_neg]
  rw [oob_iff]
  exact not_not_intro h

theorem Set_oob (img : RGBA64Image) {x y : ℤ} (c : rgba) (h : ¬ inBc img x y) :
    img.Set x y c = img := by
  unfold RGBA64Image.Set
  rw [if_pos (oob_iff.2 h)]

theorem Set_inb (img : RGBA64Image) {x y : ℤ} (c : rgba) (h : inBc img x y) :
    img.Set x y c = { img with pixels := img.pixels.set (y * img.w + x).toNat c } := by
  unfold RGBA64Image.Set
  rw [if_neg]
  rw [oob_iff]
  exact not_not_intro h

theorem Set_w (img : RGBA64Image) (x y : ℤ) (c : rgba) : (img.Set x y c).w = img.w := by
  unfold RGBA64Image.Set
  split <;> rfl

theorem Set_h (img : RGBA64Image) (x y : ℤ) (c : rgba) : (img.Set x y c).h = img.h := by
  unfold RGBA64Image.Set
  split <;> rfl

theorem Set_wfc {img : RGBA64Image} (x y : ℤ) (c : rgba) (h : img.wfc) :
    (img.Set x y c).wfc := by
  unfold RGBA64Image.Set
  split
  · exact h
  · unfold RGBA64Image.wfc at h ⊢
    simpa using h

theorem inBc_Set (img : RGBA64Image) (x y x' y' : ℤ) (c : rgba) :
    inBc (img.Set x y c) x' y' ↔ inBc img x' y' := by
  unfold inBc
  rw [Set_w, Set_h]

theorem inBc_of_shape {f d : RGBA64Image} (hw : f.w = d.w) (hh : f.h = d.h)
    (x y : ℤ) : inBc f x y ↔ inBc d x y := by
  unfold inBc
  rw [hw, hh]

/-- The effect of one `Set` on one pixel read. -/
theorem Set_At (img : RGBA64Image) (c : rgba) {x y : ℤ} (x' y' : ℤ) (hwf : img.wfc) :
    (img.Set x y c).RGBA64At x' y' =
      if x' = x ∧ y' = y ∧ inBc img x y then c else img.RGBA64At x' y' := by
  by_cases hin : inBc img x y
  · have hidx : (y * img.w + x).toNat < img.pixels.length := by
      rw [hwf]; exact idx_lt hin.1 hin.2.1 hin.2.2.1 hin.2.2.2
    rw [Set_inb img c hin]
    by_cases heq : x' = x ∧ y' = y
    · obtain ⟨hx, hy⟩ := heq
      subst hx; subst hy
      rw [if_pos ⟨rfl, rfl, hin⟩]
      have hs : inBc { img with
          pixels := img.pixels.set (y' * img.w + x').toNat c } x' y' := hin
      rw [At64_inb _ hs]
      rw [List.getD_eq_getElem?_getD, List.getElem?_set_self',
        List.getElem?_eq_getElem hidx]
      rfl
    · rw [if_neg (by tauto)]
      by_cases hin' : inBc img x' y'
      · have hne : (y' * img.w + x').toNat ≠ (y * img.w + x).toNat := by
          intro hcontra
          have := idx_toNat_inj hin'.1 hin'.2.1 hin'.2.2.1 hin.1 hin.2.1 hin.2.2.1 hcontra
          tauto
        rw [At64_inb img hin']
        have hs : inBc { img with
            pixels := img.pixels.set (y * img.w + x).toNat c } x' y' := hin'
        rw [At64_inb _ hs]
        rw [List.getD_eq_getElem?_getD, List.getElem?_set_ne (Ne.symm hne),
          ← List.getD_eq_getElem?_getD]
      · rw [At64_oob img hin']
        have hs : ¬ inBc { img with
            pixels := img.pixels.set (y * img.w + x).toNat c } x' y' := hin'
        rw [At64_oob _ hs]
  · rw [Set_oob img c hin, if_neg (by tauto)]

theorem chRowFold_shape (y : ℕ) (upd : ℕ → rgba → rgba)
    (xs : List ℕ) (d : RGBA64Image) :
    (xs.foldl (fun d2 x => d2.Set (x:ℤ) (y:ℤ) (upd x (d2.RGBA64At (x:ℤ) (y:ℤ)))) d).w = d.w ∧
    (xs.foldl (fun d2 x => d2.Set (x:ℤ) (y:ℤ) (upd x (d2.RGBA64At (x:ℤ) (y:ℤ)))) d).h = d.h ∧
    (d.wfc → (xs.foldl (fun d2 x => d2.Set (x:ℤ) (y:ℤ) (upd x (d2.RGBA64At (x:ℤ) (y:ℤ)))) d).wfc) := by
  exact foldl_preserve
    (fun f => f.w = d.w ∧ f.h = d.h ∧ (d.wfc → f.wfc))
    (fun d2 x => d2.Set (x:ℤ) (y:ℤ) (upd x (d2.RGBA64At (x:ℤ) (y:ℤ))))
    (fun d2 x h => by
      refine ⟨?_, ?_, ?_⟩
      · rw [Set_w]; exact h.1
      · rw [Set_h]; exact h.2.1
      · intro hw; exact Set_wfc _ _ _ (h.2.2 hw))
    xs d ⟨rfl, rfl, id⟩

/-- The per-pixel effect of one row of the `setChannel` loop. -/
theorem chRowFold_At (y : ℕ) (upd : ℕ → rgba → rgba) (x' y' : ℤ) :
    ∀ (xs : List ℕ) (d : RGBA64Image), d.wfc → xs.Nodup →
    (xs.foldl (fun d2 x => d2.Set (x:ℤ) (y:ℤ) (upd x (d2.RGBA64At (x:ℤ) (y:ℤ)))) d).RGBA64At x' y' =
      (if (∃ x ∈ xs, (x:ℤ) = x') ∧ y' = (y:ℤ) ∧ inBc d x' y'
       then upd x'.toNat (d.RGBA64At x' y')
       else d.RGBA64At x' y') := by
  intro xs
  induction xs with
  | nil =>
    intro d _ _
    rw [List.foldl_nil, if_neg]
    rintro ⟨⟨x, hx, _⟩, -⟩
    exact List.not_mem_nil x hx
  | cons a xs ih =>
    intro d hwf hnd
    have hand : a ∉ xs := (List.nodup_cons.1 hnd).1
    set d1 := d.Set (a:ℤ) (y:ℤ) (upd a (d.RGBA64At (a:ℤ) (y:ℤ))) with hd1
    have hwf1 : d1.wfc := Set_wfc _ _ _ hwf
    have hinB1 : ∀ u v, inBc d1 u v ↔ inBc d u v := fun u v =>
      inBc_Set d (a:ℤ) (y:ℤ) u v _
    rw [List.foldl_cons, ih d1 hwf1 (List.nodup_cons.1 hnd).2]
    have hAt1 : d1.RGBA64At x' y' =
        (if x' = (a:ℤ) ∧ y' = (y:ℤ) ∧ inBc d (a:ℤ) (y:ℤ)
         then upd a (d.RGBA64At (a:ℤ) (y:ℤ))
         else d.RGBA64At x' y') := Set_At d _ x' y' hwf
    by_cases hy : y' = (y:ℤ)
    · by_cases hin : inBc d x' y'
      · by_cases hax : (a:ℤ) = x'
        · have hnotxs : ¬ ∃ x ∈ xs, (x:ℤ) = x' := by
            rintro ⟨x, hx, hxx⟩
            apply hand
            have : x = a := by omega
            rwa [← this]
          rw [if_neg (by
            rintro ⟨hex, -, -⟩
            exact hnotxs hex)]
          rw [hAt1, if_pos ⟨hax.symm, hy, by rw [hax, ← hy]; exact hin⟩]
          rw [if_pos ⟨⟨a, List.mem_cons_self a xs, hax⟩, hy, hin⟩]
          rw [← hax, ← hy]
          rw [show ((a:ℤ)).toNat = a from Int.toNat_natCast a]
        · have hax' : ¬ (x' = (a:ℤ) ∧ y' = (y:ℤ) ∧ inBc d (a:ℤ) (y:ℤ)) := by
            rintro ⟨h1, h2, h3⟩
            exact hax (h1.symm)
          rw [hAt1, if_neg hax']
          by_cases hex : ∃ x ∈ xs, (x:ℤ) = x'
          · rw [if_pos ⟨hex, hy, (hinB1 x' y').2 hin⟩,
              if_pos ⟨⟨x'.toNat, by
                obtain ⟨x, hx, hxx⟩ := hex
                have : x'.toNat = x := by omega
                rw [this]; exact List.mem_cons_of_mem a hx, by
                  obtain ⟨x, hx, hxx⟩ := hex
                  omega⟩, hy, hin⟩]
          · rw [if_neg (by
              rintro ⟨hex1, -, -⟩
              exact hex hex1), if_neg (by
              rintro ⟨⟨x, hx, hxx⟩, -, -⟩
              rcases List.mem_cons.1 hx with h | h
              · exact hax (by rw [← h]; exact hxx)
              · exact hex ⟨x, h, hxx⟩)]
      · have hnin1 : ¬ inBc d1 x' y' := fun hcon => hin ((hinB1 x' y').1 hcon)
        rw [if_neg (by tauto), if_neg (by tauto), hAt1, if_neg (by
          rintro ⟨h1, h2, h3⟩
          rw [h1, h2] at hin
          exact hin h3)]
    · rw [if_neg (by tauto), if_neg (by tauto), hAt1, if_neg (by tauto)]

/-- The per-pixel effect of the full double loop of `setChannel`. -/
theorem chColFold_At (W : ℕ) (g : ℕ → ℕ → rgba → rgba) (x' y' : ℤ) :
    ∀ (ys : List ℕ) (d : RGBA64Image), d.wfc → ys.Nodup →
    (ys.foldl
      (fun d (y : ℕ) =>
        (List.range W).foldl
          (fun d2 (x : ℕ) => d2.Set (x:ℤ) (y:ℤ) (g x y (d2.RGBA64At (x:ℤ) (y:ℤ))))
          d)
      d).RGBA64At x' y' =
      (if (∃ y ∈ ys, (y:ℤ) = y') ∧ (0 ≤ x' ∧ x' < (W:ℤ)) ∧ inBc d x' y'
       then g x'.toNat y'.toNat (d.RGBA64At x' y')
       else d.RGBA64At x' y') := by
  intro ys
  induction ys with
  | nil =>
    intro d _ _
    rw [List.foldl_nil, if_neg]
    rintro ⟨⟨yy, hyy, _⟩, -⟩
    exact List.not_mem_nil yy hyy
  | cons b ys ih =>
    intro d hwf hnd
    have hbnd : b ∉ ys := (List.nodup_cons.1 hnd).1
    set d1 := (List.range W).foldl
      (fun d2 (x : ℕ) => d2.Set (x:ℤ) (b:ℤ) (g x b (d2.RGBA64At (x:ℤ) (b:ℤ)))) d with hd1
    have hshape := chRowFold_shape b (fun x => g x b) (List.range W) d
    have hwf1 : d1.wfc := hshape.2.2 hwf
    have hinB1 : ∀ u v, inBc d1 u v ↔ inBc d u v := fun u v =>
      inBc_of_shape hshape.1 hshape.2.1 u v
    have hAt1 : d1.RGBA64At x' y' =
        (if (∃ x ∈ List.range W, (x:ℤ) = x') ∧ y' = (b:ℤ) ∧ inBc d x' y'
         then g x'.toNat b (d.RGBA64At x' y')
         else d.RGBA64At x' y') :=
      chRowFold_At b (fun x => g x b) x' y' (List.range W) d hwf (List.nodup_range _)
    rw [List.foldl_cons, ih d1 hwf1 (List.nodup_cons.1 hnd).2]
    by_cases hxr : 0 ≤ x' ∧ x' < (W:ℤ)
    · by_cases hin : inBc d x' y'
      · by_cases hby : (b:ℤ) = y'
        · have hnotys : ¬ ∃ yy ∈ ys, (yy:ℤ) = y' := by
            rintro ⟨yy, hyy, hyyx⟩
            apply hbnd
            have : yy = b := by omega
            rwa [← this]
          rw [if_neg (by
            rintro ⟨hex, -, -⟩
            exact hnotys hex)]
          rw [hAt1, if_pos ⟨(exists_range_cast W x').2 hxr, hby.symm, hin⟩]
          rw [if_pos ⟨⟨b, List.mem_cons_self b ys, hby⟩, hxr, hin⟩]
          rw [show y'.toNat = b from by omega]
        · have hb' : ¬ ((∃ x ∈ List.range W, (x:ℤ) = x') ∧ y' = (b:ℤ) ∧ inBc d x' y') := by
            rintro ⟨-, h2, -⟩
            exact hby h2.symm
          rw [hAt1, if_neg hb']
          by_cases hex : ∃ yy ∈ ys, (yy:ℤ) = y'
          · rw [if_pos ⟨hex, hxr, (hinB1 x' y').2 hin⟩,
              if_pos ⟨⟨y'.toNat, by
                obtain ⟨yy, hyy, hyyx⟩ := hex
                have : y'.toNat = yy := by omega
                rw [this]; exact List.mem_cons_of_mem b hyy, by
                  obtain ⟨yy, hyy, hyyx⟩ := hex
                  omega⟩, hxr, hin⟩]
          · rw [if_neg (by
              rintro ⟨hex1, -, -⟩
              exact hex hex1), if_neg (by
              rintro ⟨⟨yy, hyy, hyyx⟩, -, -⟩
              rcases List.mem_cons.1 hyy with h | h
              · exact hby (by rw [← h]; exact hyyx)
              · exact hex ⟨yy, h, hyyx⟩)]
      · have hnin1 : ¬ inBc d1 x' y' := fun hcon => hin ((hinB1 x' y').1 hcon)
        rw [if_neg (by tauto), if_neg (by tauto), hAt1, if_neg (by tauto)]
    · rw [if_neg (by tauto), if_neg (by tauto), hAt1, if_neg (by
        rintro ⟨hex1, -, -⟩
        exact hxr ((exists_range_cast W x').1 hex1))]

/-- For a valid channel index, `setChannel` runs to completion and writes
the (truncated) grayscale of each in-bounds source pixel into exactly the
selected channel of the corresponding output pixel, leaving everything
else as it was. -/
theorem setChannel_At (dest : RGBA64Image) (pic : decodedImage) (channel : ℕ)
    (hch : channel < 3) (hwf : dest.wfc) :
    ∃ out, setChannel dest pic channel = some out ∧
      out.w = dest.w ∧ out.h = dest.h ∧ out.wfc ∧
      ∀ x' y' : ℤ,
        out.RGBA64At x' y' =
          (if (0 ≤ y' ∧ y' < (pic.h:ℤ)) ∧ (0 ≤ x' ∧ x' < (pic.w:ℤ)) ∧ inBc dest x' y'
           then writeChannel (dest.RGBA64At x' y') channel
             (convertToGrayscale (pic.px x'.toNat y'.toNat) % 2 ^ 16)
           else dest.RGBA64At x' y') := by
  have hno : ¬ (3 ≤ channel ∧ pic.w ≠ 0 ∧ pic.h ≠ 0) := by
    rintro ⟨h3, -, -⟩
    omega
  refine ⟨_, by unfold setChannel; rw [if_neg hno], ?_, ?_, ?_, ?_⟩
  · exact (foldl_preserve (fun f => f.w = dest.w)
      _ (fun d y h => by
        have hs := chRowFold_shape y
          (fun x => fun c => writeChannel c channel (convertToGrayscale (pic.px x y) % 2 ^ 16))
          (List.range pic.w) d
        exact hs.1.trans h)
      (List.range pic.h) dest rfl)
  · exact (foldl_preserve (fun f => f.h = dest.h)
      _ (fun d y h => by
        have hs := chRowFold_shape y
          (fun x => fun c => writeChannel c channel (convertToGrayscale (pic.px x y) % 2 ^ 16))
          (List.range pic.w) d
        exact hs.2.1.trans h)
      (List.range pic.h) dest rfl)
  · exact (foldl_preserve (fun f => f.wfc)
      _ (fun d y h => by
        have hs := chRowFold_shape y
          (fun x => fun c => writeChannel c channel (convertToGrayscale (pic.px x y) % 2 ^ 16))
          (List.range pic.w) d
        exact hs.2.2 h)
      (List.range pic.h) dest hwf)
  · intro x' y'
    have h := chColFold_At pic.w
      (fun x y c => writeChannel c channel (convertToGrayscale (pic.px x y) % 2 ^ 16))
      x' y' (List.range pic.h) dest hwf (List.nodup_range _)
    rw [h]
    exact if_congr (by rw [exists_range_cast]) rfl rfl

end Channel

/-- C4: channel-tool grayscale.  For canonical channels in `[0, 65535]`,
`convertToGrayscale` is the unnormalized integer average `(r+g+b)/3`,
which is at most `65535`, so the `uint16` conversion in `setChannel` is
exact (`g % 2^16 = g`); and `setChannel` writes exactly that value into
the selected channel of each output pixel covered by the input image,
leaving the pixel's other channels as they were (`writeChannel`). -/
theorem claim_C4_channel_grayscale :
    (∀ c : rgba, c.r ≤ 65535 → c.g ≤ 65535 → c.b ≤ 65535 →
      Channel.convertToGrayscale c = (c.r + c.g + c.b) / 3 ∧
      Channel.convertToGrayscale c ≤ 65535 ∧
      Channel.convertToGrayscale c % 2 ^ 16 = Channel.convertToGrayscale c) ∧
    (∀ (dest : Channel.RGBA64Image) (pic : decodedImage) (channel : ℕ),
      channel < 3 → dest.wfc →
      (∀ x y : ℕ, (pic.px x y).r ≤ 65535 ∧ (pic.px x y).g ≤ 65535 ∧ (pic.px x y).b ≤ 65535) →
      ∃ out, Channel.setChannel dest pic channel = some out ∧
        ∀ x' y' : ℤ, 0 ≤ y' → y' < (pic.h:ℤ) → 0 ≤ x' → x' < (pic.w:ℤ) →
          Channel.inBc dest x' y' →
          out.RGBA64At x' y' =
            Channel.writeChannel (dest.RGBA64At x' y') channel
              (Channel.convertToGrayscale (pic.px x'.toNat y'.toNat))) := by
  have hgray : ∀ c : rgba, c.r ≤ 65535 → c.g ≤ 65535 → c.b ≤ 65535 →
      Channel.convertToGrayscale c = (c.r + c.g + c.b) / 3 ∧
      Channel.convertToGrayscale c ≤ 65535 ∧
      Channel.convertToGrayscale c % 2 ^ 16 = Channel.convertToGrayscale c := by
    intro c hr hg hb
    unfold Channel.convertToGrayscale
    have hmod : (c.r + c.g + c.b) % 2 ^ 32 = c.r + c.g + c.b :=
      Nat.mod_eq_of_lt (by omega)
    rw [hmod]
    refine ⟨rfl, by omega, Nat.mod_eq_of_lt (by omega)⟩
  refine ⟨hgray, ?_⟩
  intro dest pic channel hch hwf hpx
  obtain ⟨out, hout, hw, hh, hwfout, hAt⟩ := Channel.setChannel_At dest pic channel hch hwf
  refine ⟨out, hout, ?_⟩
  intro x' y' h0y hy h0x hx hin
  rw [hAt x' y', if_pos ⟨⟨h0y, hy⟩, ⟨h0x, hx⟩, hin⟩]
  have hb := hpx x'.toNat y'.toNat
  have hle : Channel.convertToGrayscale (pic.px x'.toNat y'.toNat) ≤ 65535 :=
    (hgray _ hb.1 hb.2.1 hb.2.2).2.1
  rw [Nat.mod_eq_of_lt (by omega)]

/-- Witness for C4: the grayscale bound at the white pixel, and a
`setChannel` pass of a 1x1 black image into channel 0 of a 1x1 canvas. -/
theorem claim_C4_witness :
    (Channel.convertToGrayscale ⟨65535, 65535, 65535, 0⟩ = (65535 + 65535 + 65535) / 3 ∧
     Channel.convertToGrayscale ⟨65535, 65535, 65535, 0⟩ ≤ 65535 ∧
     Channel.convertToGrayscale ⟨65535, 65535, 65535, 0⟩ % 2 ^ 16 =
       Channel.convertToGrayscale ⟨65535, 65535, 65535, 0⟩) ∧
    (∃ out, Channel.setChannel (Channel.newRGBA64 1 1) ⟨1, 1, fun _ _ => ⟨0, 0, 0, 0⟩⟩ 0 =
        some out ∧
      ∀ x' y' : ℤ, 0 ≤ y' → y' < ((1:ℕ):ℤ) → 0 ≤ x' → x' < ((1:ℕ):ℤ) →
        Channel.inBc (Channel.newRGBA64 1 1) x' y' →
        out.RGBA64At x' y' =
          Channel.writeChannel ((Channel.newRGBA64 1 1).RGBA64At x' y') 0
            (Channel.convertToGrayscale ((fun _ _ => (⟨0, 0, 0, 0⟩ : rgba)) x'.toNat y'.toNat))) :=
  ⟨claim_C4_channel_grayscale.1 ⟨65535, 65535, 65535, 0⟩ (by decide) (by decide) (by decide),
   claim_C4_channel_grayscale.2 (Channel.newRGBA64 1 1) ⟨1, 1, fun _ _ => ⟨0, 0, 0, 0⟩⟩ 0
     (by decide) (by unfold Channel.RGBA64Image.wfc Channel.newRGBA64; decide)
     (fun x y => ⟨Nat.zero_le _, Nat.zero_le _, Nat.zero_le _⟩)⟩

/-! ## Color-parser equivalences (C5) -/

theorem parse_red : parseFloatColor "red" = .ok ⟨1, 0, 0⟩ := by
  have hb : (parseNamedColor "red").2 = true := by decide
  have h1 : (parseNamedColor "red").1 = ⟨1, 0, 0⟩ := by
    unfold parseNamedColor
    dsimp only
    rw [show colornamesMap (toLowerStr "red") = ⟨0xff, 0x00, 0x00, 0xff⟩ from by decide]
    show convertToFloatColor ⟨0xff * 257, 0x00 * 257, 0x00 * 257, 0xff * 257⟩ = _
    unfold convertToFloatColor
    rw [show (0xff * 257 : ℕ) = 65535 from by norm_num,
      show (0x00 * 257 : ℕ) = 0 from by norm_num]
    show floatColor.mk (f32Ops.div (f32Ops.ofNat 65535) 65535)
      (f32Ops.div (f32Ops.ofNat 0) 65535) (f32Ops.div (f32Ops.ofNat 0) 65535) = _
    rw [chan48_ffff, chan48_zero]
  simp only [parseFloatColor, hb, if_true, h1]

theorem parse_ff0000 : parseFloatColor "ff0000" = .ok ⟨1, 0, 0⟩ := by
  have hb : (parseNamedColor "ff0000").2 = false := by decide
  simp only [parseFloatColor, hb, Bool.false_eq_true, if_false]
  rw [show startsWithHash "ff0000" = false from by decide]
  simp only [Bool.false_eq_true, if_false]
  rw [if_pos (by decide)]
  unfold parse24BitColor
  rw [show parseUintHex "ff0000" 32 = some 16711680 from by decide]
  dsimp only
  rw [show (16711680 / 2^16 % 2^8 : ℕ) = 255 from by norm_num,
    show (16711680 / 2^8 % 2^8 : ℕ) = 0 from by norm_num,
    show (16711680 % 2^8 : ℕ) = 0 from by norm_num,
    chan24_ff, chan24_zero]

theorem parse_hash_ff0000 : parseFloatColor "#ff0000" = .ok ⟨1, 0, 0⟩ := by
  have hb : (parseNamedColor "#ff0000").2 = false := by decide
  simp only [parseFloatColor, hb, Bool.false_eq_true, if_false]
  rw [show startsWithHash "#ff0000" = true from by decide]
  simp only [if_true]
  rw [show ("#ff0000".drop 1) = "ff0000" from by decide]
  rw [if_pos (by decide)]
  unfold parse24BitColor
  rw [show parseUintHex "ff0000" 32 = some 16711680 from by decide]
  dsimp only
  rw [show (16711680 / 2^16 % 2^8 : ℕ) = 255 from by norm_num,
    show (16711680 / 2^8 % 2^8 : ℕ) = 0 from by norm_num,
    show (16711680 % 2^8 : ℕ) = 0 from by norm_num,
    chan24_ff, chan24_zero]

theorem parse_red48 : parseFloatColor "ffff00000000" = .ok ⟨1, 0, 0⟩ := by
  have hb : (parseNamedColor "ffff00000000").2 = false := by decide
  simp only [parseFloatColor, hb, Bool.false_eq_true, if_false]
  rw [show startsWithHash "ffff00000000" = false from by decide]
  simp only [Bool.false_eq_true, if_false]
  rw [if_neg (by decide), if_pos (by decide)]
  unfold parse48BitColor
  rw [show parseUintHex "ffff00000000" 64 = some 281470681743360 from by decide]
  dsimp only
  rw [show (281470681743360 / 2^32 % 2^16 : ℕ) = 65535 from by norm_num,
    show (281470681743360 / 2^16 % 2^16 : ℕ) = 0 from by norm_num,
    show (281470681743360 % 2^16 : ℕ) = 0 from by norm_num,
    chan48_ffff, chan48_zero]

theorem parse_RED : parseFloatColor "RED" = .ok ⟨1, 0, 0⟩ := by
  have hb : (parseNamedColor "RED").2 = true := by decide
  have h1 : (parseNamedColor "RED").1 = ⟨1, 0, 0⟩ := by
    unfold parseNamedColor
    dsimp only
    rw [show colornamesMap (toLowerStr "RED") = ⟨0xff, 0x00, 0x00, 0xff⟩ from by decide]
    show convertToFloatColor ⟨0xff * 257, 0x00 * 257, 0x00 * 257, 0xff * 257⟩ = _
    unfold convertToFloatColor
    rw [show (0xff * 257 : ℕ) = 65535 from by norm_num,
      show (0x00 * 257 : ℕ) = 0 from by norm_num]
    show floatColor.mk (f32Ops.div (f32Ops.ofNat 65535) 65535)
      (f32Ops.div (f32Ops.ofNat 0) 65535) (f32Ops.div (f32Ops.ofNat 0) 65535) = _
    rw [chan48_ffff, chan48_zero]
  simp only [parseFloatColor, hb, if_true, h1]

/-- C5: color-parser equivalences.  `parse("red")` and `parse("ff0000")`
yield the same floating-point color (full red); `parse("#ff0000")` equals
`parse("ff0000")`; `parse("ffff00000000")` yields full-precision red;
named colors are matched case-insensitively (`parse("RED")` =
`parse("red")`) and the named lookup is consulted before any hex parsing
is attempted; a 6-hex-digit token (after stripping an optional leading
`#`) is interpreted as 24-bit RGB with each byte normalized by `255.0`,
and a 12-hex-digit token as 48-bit RGB with each two-byte channel
normalized by `65535.0`. -/
theorem claim_C5_parser_equivalences :
    parseFloatColor "red" = parseFloatColor "ff0000" ∧
    parseFloatColor "red" = .ok ⟨1, 0, 0⟩ ∧
    parseFloatColor "#ff0000" = parseFloatColor "ff0000" ∧
    parseFloatColor "ffff00000000" = .ok ⟨1, 0, 0⟩ ∧
    parseFloatColor "RED" = parseFloatColor "red" ∧
    (∀ s : String, (parseNamedColor s).2 = true →
      parseFloatColor s = .ok (parseNamedColor s).1) ∧
    (∀ s : String, (parseNamedColor s).2 = false → startsWithHash s = false →
      s.length = 6 → parseFloatColor s = parse24BitColor s) ∧
    (∀ s : String, (parseNamedColor s).2 = false → startsWithHash s = false →
      s.length ≠ 6 → s.length = 12 → parseFloatColor s = parse48BitColor s) ∧
    (∀ (s : String) (p : ℕ), parseUintHex s 32 = some p →
      parse24BitColor s = .ok
        ⟨f32Ops.div (f32Ops.ofNat (p / 2^16 % 2^8)) 255,
         f32Ops.div (f32Ops.ofNat (p / 2^8 % 2^8)) 255,
         f32Ops.div (f32Ops.ofNat (p % 2^8)) 255⟩) ∧
    (∀ (s : String) (p : ℕ), parseUintHex s 64 = some p →
      parse48BitColor s = .ok
        ⟨f32Ops.div (f32Ops.ofNat (p / 2^32 % 2^16)) 65535,
         f32Ops.div (f32Ops.ofNat (p / 2^16 % 2^16)) 65535,
         f32Ops.div (f32Ops.ofNat (p % 2^16)) 65535⟩) := by
  refine ⟨by rw [parse_red, parse_ff0000], parse_red,
    by rw [parse_hash_ff0000, parse_ff0000], parse_red48,
    by rw [parse_RED, parse_red], ?_, ?_, ?_, ?_, ?_⟩
  · intro s hb
    simp only [parseFloatColor, hb, if_true]
  · intro s hb hhash hlen
    simp only [parseFloatColor, hb, Bool.false_eq_true, if_false, hhash]
    rw [if_pos hlen]
  · intro s hb hhash hlen6 hlen12
    simp only [parseFloatColor, hb, Bool.false_eq_true, if_false, hhash]
    rw [if_neg hlen6, if_pos hlen12]
  · intro s p hp
    unfold parse24BitColor
    rw [hp]
  · intro s p hp
    unfold parse48BitColor
    rw [hp]

/-- Witness for C5: the structural components applied to concrete
tokens. -/
theorem claim_C5_witness :
    parseFloatColor "white" = .ok (parseNamedColor "white").1 ∧
    parseFloatColor "123456" = parse24BitColor "123456" ∧
    parseFloatColor "123456789abc" = parse48BitColor "123456789abc" ∧
    parse24BitColor "123456" = .ok
      ⟨f32Ops.div (f32Ops.ofNat (1193046 / 2^16 % 2^8)) 255,
       f32Ops.div (f32Ops.ofNat (1193046 / 2^8 % 2^8)) 255,
       f32Ops.div (f32Ops.ofNat (1193046 % 2^8)) 255⟩ ∧
    parse48BitColor "123456789abc" = .ok
      ⟨f32Ops.div (f32Ops.ofNat (20015998343868 / 2^32 % 2^16)) 65535,
       f32Ops.div (f32Ops.ofNat (20015998343868 / 2^16 % 2^16)) 65535,
       f32Ops.div (f32Ops.ofNat (20015998343868 % 2^16)) 65535⟩ :=
  ⟨claim_C5_parser_equivalences.2.2.2.2.2.1 "white" (by decide),
   claim_C5_parser_equivalences.2.2.2.2.2.2.1 "123456" (by decide) (by decide) (by decide),
   claim_C5_parser_equivalences.2.2.2.2.2.2.2.1 "123456789abc" (by decide) (by decide)
     (by decide) (by decide),
   claim_C5_parser_equivalences.2.2.2.2.2.2.2.2.1 "123456" 1193046 (by decide),
   claim_C5_parser_equivalences.2.2.2.2.2.2.2.2.2 "123456789abc" 20015998343868 (by decide)⟩

/-! ## Frame property of accumulation (C6) -/

theorem foldl_id {α β : Type _} (f : β → α → β) :
    ∀ (l : List α) (v : β), (∀ a ∈ l, ∀ w, f w a = w) → l.foldl f v = v := by
  intro l
  induction l with
  | nil => intro v _; rfl
  | cons a l ih =>
    intro v h
    rw [List.foldl_cons, h a (List.mem_cons_self _ _) v]
    exact ih v (fun b hb w => h b (List.mem_cons_of_mem _ hb) w)

/-- C6: frame property.  `floatColorImage.Add` is a silent no-op at any
out-of-bounds coordinate; one `addColor` pass leaves every canvas
coordinate outside the input image's own (top-left aligned) bounds
untouched; and after a full combine, any canvas coordinate not covered by
any input's bounds still reads as black (the zero color). -/
theorem claim_C6_frame :
    (∀ (f : floatColorImage) (ops : FOps) (x y : ℤ) (c : floatColor),
      (x < 0 ∨ y < 0 ∨ f.w ≤ x ∨ f.h ≤ y) → f.Add ops x y c = f) ∧
    (∀ (ops : FOps) (dest : floatColorImage) (pic : decodedImage) (c : floatColor)
       (x y : ℤ), dest.wfc →
      ¬ ((0 ≤ y ∧ y < (pic.h:ℤ)) ∧ (0 ≤ x ∧ x < (pic.w:ℤ))) →
      (addColor ops dest pic c).At x y = dest.At x y) ∧
    (∀ (fs : String → fileResult) (inputs : List imageInput) (result : floatColorImage),
      (∀ inp ∈ inputs, ∃ pic, fs inp.filename = fileResult.ok pic) →
      combineImages f32Ops fs inputs = .ok result →
      ∀ x y : ℤ,
        (∀ inp pic, inp ∈ inputs → fs inp.filename = fileResult.ok pic →
          ¬ ((0 ≤ y ∧ y < (pic.h:ℤ)) ∧ (0 ≤ x ∧ x < (pic.w:ℤ)))) →
        result.At x y = blackFloat) := by
  refine ⟨?_, ?_, ?_⟩
  · intro f ops x y c h
    unfold floatColorImage.Add
    rw [if_pos h]
  · intro ops dest pic c x y hwf hout
    rw [addColor_At ops dest pic c x y hwf]
    rw [if_neg (by tauto)]
  · intro fs inputs result hok hres x y huncovered
    by_cases hz : maxW fs inputs = 0 ∨ maxH fs inputs = 0
    · rw [combineImages_err f32Ops fs inputs hok hz] at hres
      cases hres
    · push_neg at hz
      obtain ⟨result', hres', hw, hh, hAt, hOob⟩ :=
        combineImages_ok f32Ops fs inputs hok
          (Nat.pos_of_ne_zero hz.1) (Nat.pos_of_ne_zero hz.2)
      rw [hres'] at hres
      cases hres
      by_cases hin : 0 ≤ x ∧ 0 ≤ y ∧ x < (maxW fs inputs : ℤ) ∧ y < (maxH fs inputs : ℤ)
      · rw [hAt x y hin.1 hin.2.1 hin.2.2.1 hin.2.2.2]
        apply foldl_id
        intro inp hmem v
        obtain ⟨pic, hpic⟩ := hok inp hmem
        unfold contribStep
        rw [hpic]
        dsimp only
        rw [if_neg (huncovered inp pic hmem hpic)]
      · exact hOob x y hin

/-- Witness for C6: a no-op add at `(-1, 0)`, an `addColor` pass that
leaves `(5, 0)` untouched, and a full combine whose canvas stays black at
`(5, 7)`, a coordinate covered by no input. -/
theorem claim_C6_witness :
    (floatColorImage.mk 1 1 [blackFloat]).Add f32Ops (-1) 0 blackFloat =
      floatColorImage.mk 1 1 [blackFloat] ∧
    (addColor f32Ops (floatColorImage.mk 1 1 [blackFloat]) cexImgWhite blackFloat).At 5 0 =
      (floatColorImage.mk 1 1 [blackFloat]).At 5 0 ∧
    (combineImages f32Ops cexFs cexInputs).map (fun c => c.At 5 7) = .ok blackFloat := by
  have hwf : (floatColorImage.mk 1 1 [blackFloat]).wfc := by
    unfold floatColorImage.wfc
    decide
  refine ⟨claim_C6_frame.1 _ f32Ops (-1) 0 blackFloat (by decide),
    claim_C6_frame.2.1 f32Ops _ cexImgWhite blackFloat 5 0 hwf
      (by unfold cexImgWhite; decide), ?_⟩
  by_cases hz : maxW cexFs cexInputs = 0 ∨ maxH cexFs cexInputs = 0
  · rw [cex_maxW, cex_maxH] at hz
    rcases hz with h | h <;> exact absurd h (by decide)
  · push_neg at hz
    obtain ⟨result, hres, hw, hh, hAt, hOob⟩ :=
      combineImages_ok f32Ops cexFs cexInputs cex_hok
        (Nat.pos_of_ne_zero hz.1) (Nat.pos_of_ne_zero hz.2)
    rw [hres]
    show Except.ok (result.At 5 7) = .ok blackFloat
    rw [claim_C6_frame.2.2 cexFs cexInputs result cex_hok hres 5 7 (by
      intro inp pic hmem hfs
      simp only [cexInputs, List.mem_cons, List.not_mem_nil, or_false] at hmem
      rcases hmem with rfl | rfl | rfl
      · rw [cexFs_white] at hfs
        cases hfs
        unfold cexImgWhite
        decide
      · rw [cexFs_dim] at hfs
        cases hfs
        unfold cexImgDim
        decide
      · rw [cexFs_dim2] at hfs
        cases hfs
        unfold cexImgDim
        decide)]

/-! ## Dimension resolver (C7) -/

theorem le_foldl_max {α : Type _} (f : α → ℕ) :
    ∀ (l : List α) (a : ℕ),
    a ≤ l.foldl (fun m i => max m (f i)) a ∧
    ∀ i ∈ l, f i ≤ l.foldl (fun m i => max m (f i)) a := by
  intro l
  induction l with
  | nil => intro a; exact ⟨le_rfl, by simp⟩
  | cons j l ih =>
    intro a
    simp only [List.foldl_cons]
    refine ⟨le_trans (le_max_left a (f j)) (ih (max a (f j))).1, ?_⟩
    intro i hi
    rcases List.mem_cons.1 hi with rfl | h
    · exact le_trans (le_max_right a (f i)) (ih (max a (f i))).1
    · exact (ih (max a (f j))).2 i h

theorem foldl_max_attained {α : Type _} (f : α → ℕ) :
    ∀ (l : List α) (a : ℕ),
    l.foldl (fun m i => max m (f i)) a = a ∨
    ∃ i ∈ l, l.foldl (fun m i => max m (f i)) a = f i := by
  intro l
  induction l with
  | nil => intro a; exact Or.inl rfl
  | cons j l ih =>
    intro a
    simp only [List.foldl_cons]
    rcases ih (max a (f j)) with h | ⟨i, hi, hv⟩
    · rcases max_choice a (f j) with hm | hm
      · exact Or.inl (h.trans hm)
      · exact Or.inr ⟨j, List.mem_cons_self _ _, h.trans hm⟩
    · exact Or.inr ⟨i, List.mem_cons_of_mem _ hi, hv⟩

theorem getMaxDimensionsLoop_err_open (fs : String → fileResult)
    (bad : imageInput) (cause : String)
    (hbad : fs bad.filename = .openFail cause) :
    ∀ (pre rest : List imageInput) (a b : ℕ),
    (∀ inp ∈ pre, ∃ pic, fs inp.filename = fileResult.ok pic) →
    getMaxDimensionsLoop fs (pre ++ bad :: rest) a b =
      .error ("Failed opening " ++ bad.filename ++ ": " ++ cause) := by
  intro pre
  induction pre with
  | nil =>
    intro rest a b _
    simp only [List.nil_append, getMaxDimensionsLoop, hbad]
  | cons j pre ih =>
    intro rest a b hok
    obtain ⟨pic, hpic⟩ := hok j (List.mem_cons_self _ _)
    simp only [List.cons_append, getMaxDimensionsLoop, hpic]
    exact ih rest _ _ (fun i hi => hok i (List.mem_cons_of_mem _ hi))

theorem getMaxDimensionsLoop_err_decode (fs : String → fileResult)
    (bad : imageInput) (cause : String)
    (hbad : fs bad.filename = .decodeFail cause) :
    ∀ (pre rest : List imageInput) (a b : ℕ),
    (∀ inp ∈ pre, ∃ pic, fs inp.filename = fileResult.ok pic) →
    getMaxDimensionsLoop fs (pre ++ bad :: rest) a b =
      .error ("Failed decoding " ++ bad.filename ++ ": " ++ cause) := by
  intro pre
  induction pre with
  | nil =>
    intro rest a b _
    simp only [List.nil_append, getMaxDimensionsLoop, hbad]
  | cons j pre ih =>
    intro rest a b hok
    obtain ⟨pic, hpic⟩ := hok j (List.mem_cons_self _ _)
    simp only [List.cons_append, getMaxDimensionsLoop, hpic]
    exact ih rest _ _ (fun i hi => hok i (List.mem_cons_of_mem _ hi))

/-- C7: dimension resolver.  When every input opens and decodes,
`getMaxDimensions` returns exactly the maximum width and maximum height
observed across all inputs (an upper bound attained by some input when the
list is nonempty).  When some file fails to open or decode — regardless of
what follows it — the scan fails with an error naming that file and the
underlying cause, and no dimensions are returned. -/
theorem claim_C7_dimension_resolver :
    (∀ (fs : String → fileResult) (inputs : List imageInput),
      (∀ inp ∈ inputs, ∃ pic, fs inp.filename = fileResult.ok pic) →
      getMaxDimensions fs inputs = .ok (maxW fs inputs, maxH fs inputs) ∧
      (∀ inp pic, inp ∈ inputs → fs inp.filename = fileResult.ok pic →
        pic.w ≤ maxW fs inputs ∧ pic.h ≤ maxH fs inputs) ∧
      (inputs ≠ [] →
        (∃ inp pic, inp ∈ inputs ∧ fs inp.filename = fileResult.ok pic ∧
          pic.w = maxW fs inputs) ∧
        (∃ inp pic, inp ∈ inputs ∧ fs inp.filename = fileResult.ok pic ∧
          pic.h = maxH fs inputs))) ∧
    (∀ (fs : String → fileResult) (pre rest : List imageInput)
       (bad : imageInput) (cause : String),
      (∀ inp ∈ pre, ∃ pic, fs inp.filename = fileResult.ok pic) →
      (fs bad.filename = .openFail cause →
        getMaxDimensions fs (pre ++ bad :: rest) =
          .error ("Failed opening " ++ bad.filename ++ ": " ++ cause)) ∧
      (fs bad.filename = .decodeFail cause →
        getMaxDimensions fs (pre ++ bad :: rest) =
          .error ("Failed decoding " ++ bad.filename ++ ": " ++ cause))) := by
  constructor
  · intro fs inputs hok
    have hW : ∀ inp pic, inp ∈ inputs → fs inp.filename = fileResult.ok pic →
        pic.w ≤ maxW fs inputs ∧ pic.h ≤ maxH fs inputs := by
      intro inp pic hmem hpic
      have h1 := (le_foldl_max (decodedW fs) inputs 0).2 inp hmem
      have h2 := (le_foldl_max (decodedH fs) inputs 0).2 inp hmem
      have hdw : decodedW fs inp = pic.w := by
        unfold decodedW
        rw [hpic]
      have hdh : decodedH fs inp = pic.h := by
        unfold decodedH
        rw [hpic]
      rw [hdw] at h1
      rw [hdh] at h2
      exact ⟨h1, h2⟩
    refine ⟨getMaxDimensionsLoop_ok fs inputs 0 0 hok, hW, ?_⟩
    intro hne
    obtain ⟨first, rest, rfl⟩ := List.exists_cons_of_ne_nil hne
    obtain ⟨pic0, hpic0⟩ := hok first (List.mem_cons_self _ _)
    constructor
    · rcases foldl_max_attained (decodedW fs) (first :: rest) 0 with h | ⟨i, hi, hv⟩
      · refine ⟨first, pic0, List.mem_cons_self _ _, hpic0, ?_⟩
        have hb := (hW first pic0 (List.mem_cons_self _ _) hpic0).1
        unfold maxW at hb ⊢
        omega
      · obtain ⟨pici, hpici⟩ := hok i hi
        refine ⟨i, pici, hi, hpici, ?_⟩
        have : decodedW fs i = pici.w := by
          unfold decodedW
          rw [hpici]
        unfold maxW
        rw [hv, this]
    · rcases foldl_max_attained (decodedH fs) (first :: rest) 0 with h | ⟨i, hi, hv⟩
      · refine ⟨first, pic0, List.mem_cons_self _ _, hpic0, ?_⟩
        have hb := (hW first pic0 (List.mem_cons_self _ _) hpic0).2
        unfold maxH at hb ⊢
        omega
      · obtain ⟨pici, hpici⟩ := hok i hi
        refine ⟨i, pici, hi, hpici, ?_⟩
        have : decodedH fs i = pici.h := by
          unfold decodedH
          rw [hpici]
        unfold maxH
        rw [hv, this]
  · intro fs pre rest bad cause hok
    exact ⟨fun hbad => getMaxDimensionsLoop_err_open fs bad cause hbad pre rest 0 0 hok,
      fun hbad => getMaxDimensionsLoop_err_decode fs bad cause hbad pre rest 0 0 hok⟩

def dimImg (w h : ℕ) : decodedImage := ⟨w, h, fun _ _ => ⟨0, 0, 0, 0⟩⟩

def dimFs : String → fileResult := fun name =>
  if name = "a" then .ok (dimImg 10 20)
  else if name = "b" then .ok (dimImg 30 5)
  else if name = "c" then .ok (dimImg 2 2)
  else .openFail "no such file"

def dimInputs : List imageInput := [⟨"a", blackFloat⟩, ⟨"b", blackFloat⟩, ⟨"c", blackFloat⟩]

theorem dimFs_a : dimFs "a" = .ok (dimImg 10 20) := by
  unfold dimFs
  rw [if_pos rfl]

theorem dimFs_b : dimFs "b" = .ok (dimImg 30 5) := by
  unfold dimFs
  rw [if_neg (by decide), if_pos rfl]

theorem dimFs_c : dimFs "c" = .ok (dimImg 2 2) := by
  unfold dimFs
  rw [if_neg (by decide), if_neg (by decide), if_pos rfl]

theorem dimFs_missing : dimFs "missing" = .openFail "no such file" := by
  unfold dimFs
  rw [if_neg (by decide), if_neg (by decide), if_neg (by decide)]

/-- Witness for C7: inputs of sizes 10x20, 30x5 and 2x2 resolve to 30x20,
and appending a file that fails to open yields the naming error. -/
theorem claim_C7_witness :
    getMaxDimensions dimFs dimInputs = .ok (30, 20) ∧
    getMaxDimensions dimFs (dimInputs ++ imageInput.mk "missing" blackFloat :: []) =
      .error ("Failed opening " ++ "missing" ++ ": " ++ "no such file") := by
  have hok : ∀ inp ∈ dimInputs, ∃ pic, dimFs inp.filename = fileResult.ok pic := by
    intro inp hi
    simp only [dimInputs, List.mem_cons, List.not_mem_nil, or_false] at hi
    rcases hi with rfl | rfl | rfl
    · exact ⟨_, dimFs_a⟩
    · exact ⟨_, dimFs_b⟩
    · exact ⟨_, dimFs_c⟩
  constructor
  · have h := (claim_C7_dimension_resolver.1 dimFs dimInputs hok).1
    have hw : maxW dimFs dimInputs = 30 := by
      unfold maxW dimInputs decodedW
      simp only [List.foldl_cons, List.foldl_nil]
      rw [dimFs_a, dimFs_b, dimFs_c]
      rfl
    have hh : maxH dimFs dimInputs = 20 := by
      unfold maxH dimInputs decodedH
      simp only [List.foldl_cons, List.foldl_nil]
      rw [dimFs_a, dimFs_b, dimFs_c]
      rfl
    rw [h, hw, hh]
  · exact (claim_C7_dimension_resolver.2 dimFs dimInputs []
      ⟨"missing", blackFloat⟩ "no such file" hok).1 dimFs_missing

/-! ## Accumulation-tool argument arity (C8) -/

/-- The color tokens of the image/color pair region of the argument list
(every second token). -/
def colorTokens : List String → List String
  | _ :: c :: t => c :: colorTokens t
  | _ => []

theorem parseArgumentsLoop_ok_iff :
    ∀ (body : List String),
    (∃ r, parseArgumentsLoop body = .ok r) ↔
    (∀ c ∈ colorTokens body, ∃ col, parseFloatColor c = .ok col)
  | [] => by
    simp only [parseArgumentsLoop, colorTokens]
    constructor
    · intro _ c hc
      exact absurd hc (List.not_mem_nil c)
    · intro _
      exact ⟨[], rfl⟩
  | [f] => by
    simp only [parseArgumentsLoop, colorTokens]
    constructor
    · intro _ c hc
      exact absurd hc (List.not_mem_nil c)
    · intro _
      exact ⟨[], rfl⟩
  | f :: c :: t => by
    have ih := parseArgumentsLoop_ok_iff t
    simp only [parseArgumentsLoop, colorTokens]
    constructor
    · rintro ⟨r, hr⟩
      cases hpc : parseFloatColor c with
      | error e =>
        rw [hpc] at hr
        cases hr
      | ok col =>
        rw [hpc] at hr
        cases hlt : parseArgumentsLoop t with
        | error e =>
          rw [hlt] at hr
          cases hr
        | ok tail =>
          intro c' hc'
          rcases List.mem_cons.1 hc' with rfl | h
          · exact ⟨col, hpc⟩
          · exact ih.1 ⟨tail, hlt⟩ c' h
    · intro hall
      obtain ⟨col, hpc⟩ := hall c (List.mem_cons_self _ _)
      obtain ⟨tail, hlt⟩ := ih.2 (fun c' hc' => hall c' (List.mem_cons_of_mem _ hc'))
      rw [hpc, hlt]
      exact ⟨_, rfl⟩

/-- C8: accumulation-tool argument arity.  `parseArguments` succeeds
exactly when the count of arguments after the program name is odd and at
least 3 (one or more image/color pairs plus one output path) and every
color token parses; on any parse failure, `run` prints the usage banner
and exits with code 1. -/
theorem claim_C8_arity :
    (∀ (prog : String) (rest : List String),
      (∃ r, parseArguments (prog :: rest) = .ok r) ↔
      (rest.length % 2 = 1 ∧ 3 ≤ rest.length ∧
        ∀ c ∈ colorTokens rest.dropLast, ∃ col, parseFloatColor c = .ok col)) ∧
    (∀ (w : accumWorld) (e : String),
      parseArguments w.args = .error e → run w = ⟨1, true⟩) := by
  constructor
  · intro prog rest
    unfold parseArguments
    simp only [List.length_cons]
    by_cases h1 : rest.length + 1 ≤ 2
    · rw [if_pos h1]
      constructor
      · rintro ⟨r, hr⟩
        cases hr
      · rintro ⟨-, h3, -⟩
        omega
    · rw [if_neg h1]
      by_cases h2 : (rest.length + 1) % 2 ≠ 0
      · rw [if_pos h2]
        constructor
        · rintro ⟨r, hr⟩
          cases hr
        · rintro ⟨hodd, -, -⟩
          omega
      · rw [if_neg h2]
        push_neg at h2
        have hdrop : (prog :: rest).drop 1 = rest := rfl
        rw [hdrop]
        cases hlp : parseArgumentsLoop rest.dropLast with
        | error e =>
          constructor
          · rintro ⟨r, hr⟩
            cases hr
          · rintro ⟨-, -, hall⟩
            obtain ⟨r, hr⟩ := (parseArgumentsLoop_ok_iff rest.dropLast).2 hall
            rw [hlp] at hr
            cases hr
        | ok toReturn =>
          constructor
          · intro _
            refine ⟨by omega, by omega, ?_⟩
            exact (parseArgumentsLoop_ok_iff rest.dropLast).1 ⟨toReturn, hlp⟩
          · intro _
            exact ⟨_, rfl⟩
  · intro w e he
    unfold run
    rw [he]

/-- Witness for C8: three arguments after the program name (one valid
pair plus an output) parse; a bare program name fails and `run` prints
usage and exits 1. -/
theorem claim_C8_witness :
    (∃ r, parseArguments ("prog" :: ["img", "red", "out"]) = .ok r) ∧
    run ⟨["prog"], cexFs, fun _ => true, true⟩ = ⟨1, true⟩ := by
  constructor
  · refine (claim_C8_arity.1 "prog" ["img", "red", "out"]).2 ⟨by decide, by decide, ?_⟩
    intro c hc
    rcases List.mem_cons.1 hc with rfl | h
    · exact ⟨_, parse_red⟩
    · exact absurd h (List.not_mem_nil c)
  · apply claim_C8_arity.2 ⟨["prog"], cexFs, fun _ => true, true⟩
      "Invalid arguments: at least one image/color must be provided"
    unfold parseArguments
    rw [if_pos (by decide)]

/-! ## Channel-tool input validation (C9) -/

/-- C9: channel-tool input validation.  The channel tool's `run` exits
with code 1 — without attempting any combining — whenever any of the
`-r`, `-g`, `-b` or `-output` flags is missing (its value left at the
empty-string default); and `combineImages` rejects any list of more than
3 channel inputs with an error. -/
theorem claim_C9_channel_validation :
    (∀ w : Channel.chanWorld,
      (w.redName = "" ∨ w.greenName = "" ∨ w.blueName = "" ∨ w.outputName = "") →
      Channel.run w = ⟨1, false⟩) ∧
    (∀ (fs : String → fileResult) (imageFiles : List String),
      3 < imageFiles.length →
      Channel.combineImages fs imageFiles =
        .error "Using more than 3 channels is unsupported.") := by
  constructor
  · intro w hmissing
    unfold Channel.run
    by_cases hc : w.redName = "" ∨ w.greenName = "" ∨ w.blueName = ""
    · rw [if_pos hc]
    · rw [if_neg hc, if_pos (by tauto)]
  · intro fs imageFiles hlen
    unfold Channel.combineImages
    rw [if_pos hlen]

/-- Witness for C9: a missing red flag aborts before combining, and four
channel inputs are rejected. -/
theorem claim_C9_witness :
    Channel.run ⟨"", "g.png", "b.png", "out.jpg", cexFs, fun _ => true, true⟩ = ⟨1, false⟩ ∧
    Channel.combineImages cexFs ["a", "b", "c", "d"] =
      .error "Using more than 3 channels is unsupported." :=
  ⟨claim_C9_channel_validation.1 ⟨"", "g.png", "b.png", "out.jpg", cexFs, fun _ => true, true⟩
     (Or.inl rfl),
   claim_C9_channel_validation.2 cexFs ["a", "b", "c", "d"] (by decide)⟩

/-! ## Canvas reads are total (C10) -/

/-- C10: canvas reads are total.  `floatColorImage.At` returns for every
integer coordinate: the black color when the coordinate is out of bounds,
and otherwise the stored pixel at flat index `y*w + x`, an index that is
always inside the pixel slice of a well-formed canvas — the invariant
established by `newFloatColorImage` and preserved by `Add`. -/
theorem claim_C10_at_total :
    (∀ (f : floatColorImage) (x y : ℤ),
      (x < 0 ∨ y < 0 ∨ f.w ≤ x ∨ f.h ≤ y) → f.At x y = blackFloat) ∧
    (∀ (f : floatColorImage) (x y : ℤ), f.wfc →
      0 ≤ x → 0 ≤ y → x < f.w → y < f.h →
      (y * f.w + x).toNat < f.pixels.length ∧
      f.At x y = f.pixels.getD (y * f.w + x).toNat blackFloat) ∧
    (∀ (w h : ℤ) (f : floatColorImage), newFloatColorImage w h = .ok f → f.wfc) ∧
    (∀ (f : floatColorImage) (ops : FOps) (x y : ℤ) (c : floatColor),
      f.wfc → (f.Add ops x y c).wfc) := by
  refine ⟨?_, ?_, ?_, ?_⟩
  · intro f x y h
    apply At_oob f
    have hc := oob_iff.1 h
    exact fun hin => hc hin
  · intro f x y hwf h0x h0y hxw hyh
    have hidx : (y * f.w + x).toNat < f.pixels.length := by
      rw [hwf]
      exact idx_lt h0x h0y hxw hyh
    exact ⟨hidx, At_inb f ⟨h0x, h0y, hxw, hyh⟩⟩
  · intro w h f hf
    exact (newFloatColorImage_wfc hf).2.2.1
  · intro f ops x y c hwf
    exact Add_wfc ops x y c hwf

/-- Witness for C10 on a 1x1 canvas. -/
theorem claim_C10_witness :
    (floatColorImage.mk 1 1 [blackFloat]).At (-1) 0 = blackFloat ∧
    (((0:ℤ) * (floatColorImage.mk 1 1 [blackFloat]).w + 0).toNat <
        (floatColorImage.mk 1 1 [blackFloat]).pixels.length ∧
      (floatColorImage.mk 1 1 [blackFloat]).At 0 0 =
        (floatColorImage.mk 1 1 [blackFloat]).pixels.getD
          ((0:ℤ) * (floatColorImage.mk 1 1 [blackFloat]).w + 0).toNat blackFloat) ∧
    (floatColorImage.mk 1 1 [blackFloat]).wfc ∧
    ((floatColorImage.mk 1 1 [blackFloat]).Add f32Ops 0 0 blackFloat).wfc := by
  have hwf : (floatColorImage.mk 1 1 [blackFloat]).wfc := by
    unfold floatColorImage.wfc
    decide
  refine ⟨claim_C10_at_total.1 _ (-1) 0 (by decide),
    claim_C10_at_total.2.1 _ 0 0 hwf (by decide) (by decide) (by decide) (by decide),
    claim_C10_at_total.2.2.1 1 1 _ ?_,
    claim_C10_at_total.2.2.2 _ f32Ops 0 0 blackFloat hwf⟩
  unfold newFloatColorImage
  rw [if_neg (by decide)]
  rfl
